import Mathlib

/-!
# GammaRay `ObjectTreeModel` (src/core/objecttreemodel.cpp)

A shallow embedding of the tree model that GammaRay keeps over the objects of
the probed application, and theorems about its three slots
(`objectAdded`, `objectRemoved`, `objectReparanted`) and its queries
(`indexForObject`, `index`, `rowCount`, `parent`, `data`).

Conventions of the embedding.

* A `QObject*` is a natural number, the null pointer is `0`.
* `QHash<K, V>` is a function `K → Option V`; `none` is an absent key.
  `value(k)` is the stored value or a default-constructed one, the non-const
  `operator[]` inserts a default-constructed value for an absent key.
* `QVector<QObject*>` is a `List`; `indexOf` answers `-1` for a missing element.
* Rows and columns are Qt `int`s, embedded as `Int` (a `QVector` never holds more
  than `INT_MAX` elements, so no arithmetic here can overflow).
* The signals of `QAbstractItemModel` that bracket a structural edit are
  recorded, in order, in the field `signals` of the model.
* `Q_ASSERT` is compiled out (release build): it has no effect.
* The recursion of `indexForObject` along the child→parent map and of
  `objectAdded` along `QObject::parent()` need not terminate; both are embedded
  with a fuel argument and answer `none` when the fuel runs out.
* The lock (`ReadOrWriteLocker`) is not part of the sequential embedding.
-/

namespace GammaRay

/-- A `QObject*`: an address, `0` being the null pointer. -/
abbrev QObjectPtr := Nat

/-- The null pointer. -/
abbrev nullObj : QObjectPtr := 0

/-- A `QModelIndex`: row, column, internal pointer, and whether it carries a model
pointer (a default-constructed index carries none). -/
structure QModelIndex where
  row : Int
  column : Int
  internalPointer : QObjectPtr
  hasModel : Bool
deriving DecidableEq, Repr

/-- The default-constructed index `QModelIndex()`, which stands for the root. -/
def QModelIndex.null : QModelIndex := ⟨-1, -1, nullObj, false⟩

/-- Qt: `isValid()` is `(r >= 0) && (c >= 0) && (m != 0)`. -/
def QModelIndex.isValid (i : QModelIndex) : Bool :=
  decide (0 ≤ i.row) && decide (0 ≤ i.column) && i.hasModel

/-- Qt: `createIndex(row, column, ptr)` of `QAbstractItemModel`. -/
def createIndex (row column : Int) (ptr : QObjectPtr) : QModelIndex :=
  ⟨row, column, ptr, true⟩

/-- The signals a `QAbstractItemModel` emits around a structural edit
(`rowsAboutToBeInserted` / `rowsInserted` / `rowsAboutToBeRemoved` / `rowsRemoved`),
named after the calls that emit them. -/
inductive Signal where
  | beginInsertRows (parent : QModelIndex) (first last : Int)
  | endInsertRows
  | beginRemoveRows (parent : QModelIndex) (first last : Int)
  | endRemoveRows
deriving DecidableEq, Repr

/-- The source graph as the model sees it: `Probe::instance()->isValidObject(obj)`
and `obj->parent()`. Neither is defined in this file of the repository, both are
taken as parameters. -/
structure Probe where
  isValidObject : QObjectPtr → Bool
  parent : QObjectPtr → QObjectPtr

/-- The members of `ObjectTreeModel` and the record of emitted signals. -/
structure ObjectTreeModel where
  m_parentChildMap : QObjectPtr → Option (List QObjectPtr)
  m_childParentMap : QObjectPtr → Option QObjectPtr
  signals : List Signal

/-- The model right after construction: both maps empty, nothing emitted. -/
def ObjectTreeModel.empty : ObjectTreeModel :=
  ⟨fun _ => none, fun _ => none, []⟩

/-- `QHash::insert(k, v)`, also the effect of assigning through `operator[]`. -/
def hashInsert {V : Type} (h : QObjectPtr → Option V) (k : QObjectPtr) (v : V) :
    QObjectPtr → Option V :=
  fun j => if j = k then some v else h j

/-- `QHash::remove(k)`. -/
def hashRemove {V : Type} (h : QObjectPtr → Option V) (k : QObjectPtr) :
    QObjectPtr → Option V :=
  fun j => if j = k then none else h j

/-- `m_parentChildMap.value(p)`: the children sequence of `p`, empty when `p` has none. -/
def ObjectTreeModel.childrenOf (m : ObjectTreeModel) (p : QObjectPtr) : List QObjectPtr :=
  (m.m_parentChildMap p).getD []

/-- `m_childParentMap.value(c)`: the recorded parent of `c`, null when `c` has no entry. -/
def ObjectTreeModel.parentValue (m : ObjectTreeModel) (c : QObjectPtr) : QObjectPtr :=
  (m.m_childParentMap c).getD nullObj

/-- `QVector::indexOf`: position of the first occurrence, `-1` when there is none. -/
def vectorIndexOf (v : List QObjectPtr) (x : QObjectPtr) : Int :=
  if x ∈ v then (v.indexOf x : Int) else -1

/-- `ObjectTreeModel::index(row, column, parent)`; `columnCount()` comes from the base
class and is a parameter. -/
def index (columnCount : Int) (m : ObjectTreeModel) (row column : Int)
    (parent : QModelIndex) : QModelIndex :=
  let parentObj := parent.internalPointer
  let children := m.childrenOf parentObj
  if row < 0 ∨ column < 0 ∨ row ≥ (children.length : Int) ∨ column ≥ columnCount then
    QModelIndex.null
  else
    createIndex row column (children.getD row.toNat nullObj)

/-- `ObjectTreeModel::indexForObject(object)`. The recursion follows the child→parent
map; `none` means the fuel ran out. -/
def indexForObject (columnCount : Int) (m : ObjectTreeModel) :
    Nat → QObjectPtr → Option QModelIndex
  | 0, _ => none
  | fuel + 1, object =>
    if object = nullObj then
      some QModelIndex.null
    else
      let parent := m.parentValue object
      match indexForObject columnCount m fuel parent with
      | none => none
      | some parentIndex =>
        if parentIndex.isValid = false ∧ parent ≠ nullObj then
          some QModelIndex.null
        else
          let row := vectorIndexOf (m.childrenOf parent) object
          if row < 0 then
            some QModelIndex.null
          else
            some (index columnCount m row 0 parentIndex)

/-- Lines 88-95 of `objectAdded`: announce the new last row of `parentObj`, append `obj`
to the children of `parentObj`, record `parentObj` as the parent of `obj`. -/
def appendRow (m : ObjectTreeModel) (index : QModelIndex) (parentObj obj : QObjectPtr) :
    ObjectTreeModel :=
  let children := m.childrenOf parentObj
  { m_parentChildMap := hashInsert m.m_parentChildMap parentObj (children ++ [obj])
    m_childParentMap := hashInsert m.m_childParentMap obj parentObj
    signals := m.signals ++
      [Signal.beginInsertRows index children.length children.length, Signal.endInsertRows] }

/-- The tail of `objectAdded` (lines 83-95): resolve the position of the parent, then
append the row. -/
def insertRow (columnCount : Int) (probe : Probe) (fuel : Nat) (m : ObjectTreeModel)
    (obj : QObjectPtr) : Option ObjectTreeModel :=
  match indexForObject columnCount m fuel (probe.parent obj) with
  | none => none
  | some index => some (appendRow m index (probe.parent obj) obj)

/-- `ObjectTreeModel::objectAdded(obj)`. The recursion follows `QObject::parent()`;
`none` means the fuel ran out. -/
def objectAdded (columnCount : Int) (probe : Probe) :
    Nat → ObjectTreeModel → QObjectPtr → Option ObjectTreeModel
  | 0, _, _ => none
  | fuel + 1, m, obj =>
    if probe.isValidObject obj = false then
      some m
    else
      match indexForObject columnCount m fuel obj with
      | none => none
      | some own =>
        if own.isValid then
          some m
        else if probe.parent obj ≠ nullObj then
          match indexForObject columnCount m fuel (probe.parent obj) with
          | none => none
          | some index =>
            if index.isValid = false then
              match objectAdded columnCount probe fuel m (probe.parent obj) with
              | none => none
              | some m1 => insertRow columnCount probe fuel m1 obj
            else
              insertRow columnCount probe fuel m obj
        else
          insertRow columnCount probe fuel m obj

/-- Lines 129-135 of `objectRemoved`: announce the removal of row `index` of `parentObj`,
erase that row from the children of `parentObj`, drop the child→parent entry of `obj`
and the children sequence of `obj`. -/
def eraseRow (m : ObjectTreeModel) (parentIndex : QModelIndex) (parentObj obj : QObjectPtr)
    (index : Int) : ObjectTreeModel :=
  let siblings := m.childrenOf parentObj
  { m_parentChildMap :=
      hashRemove (hashInsert m.m_parentChildMap parentObj (siblings.eraseIdx index.toNat)) obj
    m_childParentMap := hashRemove m.m_childParentMap obj
    signals := m.signals ++
      [Signal.beginRemoveRows parentIndex index index, Signal.endRemoveRows] }

/-- The effect of `m_parentChildMap[parentObj]` alone (line 121): an absent key gets an
empty children sequence. -/
def touchSiblings (m : ObjectTreeModel) (parentObj : QObjectPtr) : ObjectTreeModel :=
  { m with m_parentChildMap := hashInsert m.m_parentChildMap parentObj (m.childrenOf parentObj) }

/-- `ObjectTreeModel::objectRemoved(obj)`. -/
def objectRemoved (columnCount : Int) (fuel : Nat) (m : ObjectTreeModel)
    (obj : QObjectPtr) : Option ObjectTreeModel :=
  if m.m_childParentMap obj = none then
    some m
  else
    let parentObj := m.parentValue obj
    match indexForObject columnCount m fuel parentObj with
    | none => none
    | some parentIndex =>
      if parentObj ≠ nullObj ∧ parentIndex.isValid = false then
        some m
      else
        let index := vectorIndexOf (m.childrenOf parentObj) obj
        if index = -1 then
          some (touchSiblings m parentObj)
        else
          some (eraseRow m parentIndex parentObj obj index)

/-- `ObjectTreeModel::objectReparanted(obj)`. -/
def objectReparanted (columnCount : Int) (probe : Probe) (fuel : Nat) (m : ObjectTreeModel)
    (obj : QObjectPtr) : Option ObjectTreeModel :=
  if probe.isValidObject obj then
    match objectAdded columnCount probe fuel m obj with
    | none => none
    | some m1 => objectRemoved columnCount fuel m1 obj
  else
    objectRemoved columnCount fuel m obj

/-- The position `indexForObject` answers for a resolved node: its row among the children
of its recorded parent, column 0, the node itself as internal pointer. -/
def rowIndex (m : ObjectTreeModel) (x : QObjectPtr) : QModelIndex :=
  createIndex (vectorIndexOf (m.childrenOf (m.parentValue x)) x) 0 x

/-- The child→parent chain that starts at a node leads to the root, every node on it is
non-null, satisfies `P` and occurs in the children sequence of its recorded parent. With
`P` trivially true this is exactly when `indexForObject` answers a valid position. -/
inductive Chain (cc : Int) (m : ObjectTreeModel) (P : QObjectPtr → Prop) : QObjectPtr → Prop
  | root (z : QObjectPtr) : z ≠ nullObj → P z → 0 < cc → m.parentValue z = nullObj →
      z ∈ m.childrenOf nullObj → Chain cc m P z
  | step (z : QObjectPtr) : z ≠ nullObj → P z → 0 < cc → z ∈ m.childrenOf (m.parentValue z) →
      Chain cc m P (m.parentValue z) → Chain cc m P z

/-- The node has a position: `indexForObject` returns a valid index for it. -/
def Resolved (cc : Int) (m : ObjectTreeModel) (x : QObjectPtr) : Prop :=
  ∃ n i, indexForObject cc m n x = some i ∧ i.isValid = true

/-- The node has no position: `indexForObject` returns, with an invalid index. -/
def Unresolved (cc : Int) (m : ObjectTreeModel) (x : QObjectPtr) : Prop :=
  ∃ n i, indexForObject cc m n x = some i ∧ i.isValid = false

/-- The mutual-inverse invariant of the two maps: a node with a child→parent entry `p`
occurs exactly once in the children sequence of `p`, and every node of the children
sequence of `p` has the child→parent entry `p`. -/
def MutualInverse (m : ObjectTreeModel) : Prop :=
  (∀ c p, m.m_childParentMap c = some p → (m.childrenOf p).count c = 1) ∧
  (∀ p c, c ∈ m.childrenOf p → m.m_childParentMap c = some p)

/-- The two maps are mutual inverses and every node with a child→parent entry has a
position. -/
def Consistent (cc : Int) (m : ObjectTreeModel) : Prop :=
  MutualInverse m ∧ ∀ c p, m.m_childParentMap c = some p → Resolved cc m c

/-- The source graph never attests the null pointer, and the parent it reports for a
live object is null or live (what `objectAdded` asserts at line 63). -/
def Probe.ParentsLive (probe : Probe) : Prop :=
  probe.isValidObject nullObj = false ∧
  ∀ x, probe.isValidObject x = true →
    probe.parent x = nullObj ∨ probe.isValidObject (probe.parent x) = true

/-- The chain of `QObject::parent()` that starts at `x` reaches the null pointer after
exactly `d` steps. -/
def chainLength (probe : Probe) : Nat → QObjectPtr → Bool
  | 0, x => decide (x = nullObj)
  | d + 1, x => decide (x ≠ nullObj) && chainLength probe d (probe.parent x)

/-- What the probe reports to the model: `objectCreated`, `objectDestroyed`,
`objectReparanted`, each carrying one object. -/
inductive Event where
  | added (obj : QObjectPtr)
  | removed (obj : QObjectPtr)
  | reparented (obj : QObjectPtr)
deriving DecidableEq, Repr

/-- The slot connected to each signal of the probe (the constructor of `ObjectTreeModel`). -/
def applyEvent (columnCount : Int) (probe : Probe) (fuel : Nat) (m : ObjectTreeModel) :
    Event → Option ObjectTreeModel
  | Event.added obj => objectAdded columnCount probe fuel m obj
  | Event.removed obj => objectRemoved columnCount fuel m obj
  | Event.reparented obj => objectReparanted columnCount probe fuel m obj

/-- The models reachable from the freshly constructed one by a finite sequence of events,
each handled to completion, whatever the source graph looks like at each event. -/
inductive Reachable (cc : Int) : ObjectTreeModel → Prop
  | init : Reachable cc ObjectTreeModel.empty
  | step (probe : Probe) (fuel : Nat) (ev : Event) {m m1 : ObjectTreeModel} :
      Reachable cc m → applyEvent cc probe fuel m ev = some m1 → Reachable cc m1

/-- The models reachable from the freshly constructed one when the source graph at each
event never attests null, reports a null or live parent for every live object and a finite
parent chain for the live object of the event, and when an object is removed or reparented
only while its children sequence is empty. -/
inductive LeafReachable (cc : Int) : ObjectTreeModel → Prop
  | init : LeafReachable cc ObjectTreeModel.empty
  | added (probe : Probe) (fuel d : Nat) (x : QObjectPtr) {m m1 : ObjectTreeModel} :
      LeafReachable cc m → probe.ParentsLive →
      (probe.isValidObject x = true → chainLength probe d x = true) →
      objectAdded cc probe fuel m x = some m1 → LeafReachable cc m1
  | removed (fuel : Nat) (x : QObjectPtr) {m m1 : ObjectTreeModel} :
      LeafReachable cc m → m.childrenOf x = [] →
      objectRemoved cc fuel m x = some m1 → LeafReachable cc m1
  | reparented (probe : Probe) (fuel d : Nat) (x : QObjectPtr) {m m1 : ObjectTreeModel} :
      LeafReachable cc m → probe.ParentsLive →
      (probe.isValidObject x = true → chainLength probe d x = true) →
      m.childrenOf x = [] →
      objectReparanted cc probe fuel m x = some m1 → LeafReachable cc m1

/-- The source graph of the scenario of the specification (section 8): objects `A = 1`,
`B = 2`, `C = 3` are live, `B` and `C` are children of `A`, `A` has no parent. -/
def scenarioProbe : Probe :=
  ⟨fun x => decide (x = 1 ∨ x = 2 ∨ x = 3), fun x => if x = 2 ∨ x = 3 then 1 else nullObj⟩

/-- The source graph of the scenario after `C` was given the null parent. -/
def reparentedProbe : Probe :=
  ⟨fun x => decide (x = 1 ∨ x = 2 ∨ x = 3), fun x => if x = 2 then 1 else nullObj⟩

/-- The model of the scenario after `Added(A)`. -/
def scenarioA : ObjectTreeModel :=
  appendRow ObjectTreeModel.empty QModelIndex.null nullObj 1

/-- The model of the scenario after `Added(A)`, `Added(B)`. -/
def scenarioAB : ObjectTreeModel :=
  appendRow scenarioA (createIndex 0 0 1) 1 2

/-- The model of the scenario after `Added(A)`, `Added(B)`, `Added(C)`. -/
def scenarioABC : ObjectTreeModel :=
  appendRow scenarioAB (createIndex 0 0 1) 1 3

/-- The model of the scenario after `Added(A)`, `Added(B)`, `Added(C)`, `Removed(B)`. -/
def scenarioAC : ObjectTreeModel :=
  eraseRow scenarioABC (createIndex 0 0 1) 1 2 0

/-- A source graph in which the live object 2 reports the parent 1, and 1 is not live. -/
def orphanProbe : Probe :=
  ⟨fun x => decide (x = 2), fun x => if x = 2 then 1 else nullObj⟩

/-- A model in which node 1 has the child→parent entry null but is missing from the
children of the root. -/
def danglingEntry : ObjectTreeModel :=
  ⟨fun _ => none, fun z => if z = 1 then some nullObj else none, []⟩

/-- The model after `Added(2)` under the source graph `orphanProbe`: node 2 is recorded
under the parent 1, which has no position. -/
def orphanModel : ObjectTreeModel :=
  appendRow ObjectTreeModel.empty QModelIndex.null 1 2

/-- The signal belongs to an insertion (`beginInsertRows` or `endInsertRows`). -/
def Signal.isInsert : Signal → Bool
  | Signal.beginInsertRows _ _ _ => true
  | Signal.endInsertRows => true
  | Signal.beginRemoveRows _ _ _ => false
  | Signal.endRemoveRows => false

/-- A `QVariant`: the invalid (empty) variant `QVariant()`, a string, or any other
payload. -/
inductive QVariant where
  | invalid
  | string (s : String)
  | other (payload : Nat)
deriving DecidableEq, Repr

/-- Qt: `Qt::DisplayRole`. -/
def DisplayRole : Int := 0

/-- What `data` needs and this file of the repository does not define: the per-object
formatter `dataForObject` of the base class, `Util::addressToString`, and the translation
lookup `tr`. All three are taken as parameters. -/
structure Display where
  dataForObject : QObjectPtr → QModelIndex → Int → QVariant
  addressToString : QObjectPtr → String
  tr : String → String

/-- `ObjectTreeModel::data(index, role)`. -/
def data (probe : Probe) (display : Display) (index : QModelIndex) (role : Int) : QVariant :=
  if index.isValid = false then
    QVariant.invalid
  else
    let obj := index.internalPointer
    if probe.isValidObject obj then
      display.dataForObject obj index role
    else if role = DisplayRole then
      if index.column = 0 then
        QVariant.string (display.addressToString obj)
      else
        QVariant.string (display.tr "<deleted>")
    else
      QVariant.invalid

/-- `ObjectTreeModel::rowCount(parent)`. -/
def rowCount (m : ObjectTreeModel) (parent : QModelIndex) : Int :=
  if parent.column = 1 then
    0
  else
    ((m.childrenOf parent.internalPointer).length : Int)

/-- `ObjectTreeModel::parent(child)`; `none` means the fuel of `indexForObject` ran out. -/
def parent (columnCount : Int) (m : ObjectTreeModel) (fuel : Nat) (child : QModelIndex) :
    Option QModelIndex :=
  indexForObject columnCount m fuel (m.parentValue child.internalPointer)

/-- A display layer for the examples: the formatter answers the payload 7 for every object,
an address is printed as its decimal numeral, and no translation is installed. -/
def plainDisplay : Display :=
  ⟨fun _ _ _ => QVariant.other 7, fun obj => toString obj, fun text => text⟩

/-- A source graph in which the object 3 is not live and still reports the live parent 1. -/
def deadLeafProbe : Probe :=
  ⟨fun x => decide (x = 1), fun x => if x = 3 then 1 else nullObj⟩

/-- The model after `Added(2)`, `Added(2)` under the source graph `orphanProbe` and then
`Added(1)` under the source graph of the scenario: the children of 1 are `[2, 2]`, and 1 is
the only child of the root. -/
def duplicateModel : ObjectTreeModel :=
  appendRow (appendRow orphanModel QModelIndex.null 1 2) QModelIndex.null nullObj 1

/-- The models reachable from the freshly constructed one, under one source graph, by
`objectAdded` for arbitrary objects and `objectRemoved` for objects whose children
sequence is empty at that moment. -/
inductive AddRemoveReachable (cc : Int) (probe : Probe) : ObjectTreeModel → Prop
  | init : AddRemoveReachable cc probe ObjectTreeModel.empty
  | added (fuel : Nat) (x : QObjectPtr) {m m1 : ObjectTreeModel} :
      AddRemoveReachable cc probe m →
      objectAdded cc probe fuel m x = some m1 → AddRemoveReachable cc probe m1
  | removed (fuel : Nat) (x : QObjectPtr) {m m1 : ObjectTreeModel} :
      AddRemoveReachable cc probe m → m.childrenOf x = [] →
      objectRemoved cc fuel m x = some m1 → AddRemoveReachable cc probe m1

/-- Following the child→parent map from `x` reaches the null pointer (the root) within `k`
steps. -/
def reachesRoot (m : ObjectTreeModel) : Nat → QObjectPtr → Bool
  | 0, x => decide (x = nullObj)
  | k + 1, x => decide (x = nullObj) || reachesRoot m k (m.parentValue x)

/-- The models reachable from the freshly constructed one by a finite sequence of
`objectAdded`, `objectRemoved` and `objectReparanted` events (any node, with or without
children), when the source graph at each event never attests null, reports a null or live
parent for every live object and a finite parent chain for the live object of the event. -/
inductive SaneReachable (cc : Int) : ObjectTreeModel → Prop
  | init : SaneReachable cc ObjectTreeModel.empty
  | added (probe : Probe) (fuel d : Nat) (x : QObjectPtr) {m m1 : ObjectTreeModel} :
      SaneReachable cc m → probe.ParentsLive →
      (probe.isValidObject x = true → chainLength probe d x = true) →
      objectAdded cc probe fuel m x = some m1 → SaneReachable cc m1
  | removed (fuel : Nat) (x : QObjectPtr) {m m1 : ObjectTreeModel} :
      SaneReachable cc m → objectRemoved cc fuel m x = some m1 → SaneReachable cc m1
  | reparented (probe : Probe) (fuel d : Nat) (x : QObjectPtr) {m m1 : ObjectTreeModel} :
      SaneReachable cc m → probe.ParentsLive →
      (probe.isValidObject x = true → chainLength probe d x = true) →
      objectReparanted cc probe fuel m x = some m1 → SaneReachable cc m1

/-- The model of the scenario after `Added(A)`, `Added(B)`, `Removed(A)`: `B` keeps the
recorded parent `A`, which is gone. -/
def orphanedB : ObjectTreeModel :=
  eraseRow scenarioAB QModelIndex.null nullObj 1 0

/-- The child→parent map is acyclic: from every node the chain of recorded parents reaches
the null pointer. -/
def Acyclic (m : ObjectTreeModel) : Prop :=
  ∀ z, ∃ k, reachesRoot m k z = true

/-- The result of `objectAdded` together with a record of its recursion: the recursive
calls made, each as the pair of the object of the enclosing call and the object passed,
in call order, and the deepest nesting of recursive calls below the outermost call. -/
structure AddedTrace where
  model : ObjectTreeModel
  calls : List (QObjectPtr × QObjectPtr)
  depth : Nat

/-- `ObjectTreeModel::objectAdded(obj)` once more, instrumented: the same control flow as
`objectAdded`, recording each recursive call (line 79) and the nesting depth. -/
def objectAddedTraced (columnCount : Int) (probe : Probe) :
    Nat → ObjectTreeModel → QObjectPtr → Option AddedTrace
  | 0, _, _ => none
  | fuel + 1, m, obj =>
    if probe.isValidObject obj = false then
      some ⟨m, [], 0⟩
    else
      match indexForObject columnCount m fuel obj with
      | none => none
      | some own =>
        if own.isValid then
          some ⟨m, [], 0⟩
        else if probe.parent obj ≠ nullObj then
          match indexForObject columnCount m fuel (probe.parent obj) with
          | none => none
          | some index =>
            if index.isValid = false then
              match objectAddedTraced columnCount probe fuel m (probe.parent obj) with
              | none => none
              | some t =>
                match insertRow columnCount probe fuel t.model obj with
                | none => none
                | some m2 => some ⟨m2, (obj, probe.parent obj) :: t.calls, t.depth + 1⟩
            else
              match insertRow columnCount probe fuel m obj with
              | none => none
              | some m2 => some ⟨m2, [], 0⟩
        else
          match insertRow columnCount probe fuel m obj with
          | none => none
          | some m2 => some ⟨m2, [], 0⟩

/-- A source graph in which the objects 3 and 2 are live, 3 is a child of 2, and 2 reports
the parent 1, which is not live. -/
def deadGrandparentProbe : Probe :=
  ⟨fun x => decide (x = 2 ∨ x = 3),
    fun x => if x = 3 then 2 else if x = 2 then 1 else nullObj⟩

/-- A source graph in which only the object 1 is live and reports the parent 2. -/
def staleProbe : Probe :=
  ⟨fun x => decide (x = 1), fun x => if x = 1 then 2 else nullObj⟩

/-- The model after `Added(1)` under the source graph `staleProbe`: node 1 is recorded under
the parent 2, which has no entry. -/
def staleModel : ObjectTreeModel :=
  appendRow ObjectTreeModel.empty QModelIndex.null 2 1

/-- The model after `Added(1)` under the source graph `staleProbe` and `Added(2)` under the
source graph `deadGrandparentProbe`: node 1 is recorded under 2 and node 2 under 1, the
child→parent map has the cycle 1, 2, 1. -/
def cycleModel : ObjectTreeModel :=
  appendRow staleModel QModelIndex.null 1 2

/-! ## Basic facts about `indexForObject` -/

theorem indexForObject_succ (cc : Int) (m : ObjectTreeModel) (fuel : Nat) (object : QObjectPtr) :
    indexForObject cc m (fuel + 1) object =
      if object = nullObj then some QModelIndex.null
      else
        match indexForObject cc m fuel (m.parentValue object) with
        | none => none
        | some parentIndex =>
          if parentIndex.isValid = false ∧ m.parentValue object ≠ nullObj then
            some QModelIndex.null
          else if vectorIndexOf (m.childrenOf (m.parentValue object)) object < 0 then
            some QModelIndex.null
          else
            some (index cc m (vectorIndexOf (m.childrenOf (m.parentValue object)) object) 0
              parentIndex) := by
  rfl

theorem isValid_null : QModelIndex.null.isValid = false := by decide

theorem vectorIndexOf_nonneg {v : List QObjectPtr} {x : QObjectPtr} (h : x ∈ v) :
    0 ≤ vectorIndexOf v x := by
  simp [vectorIndexOf, h]

theorem vectorIndexOf_lt {v : List QObjectPtr} {x : QObjectPtr} (h : x ∈ v) :
    vectorIndexOf v x < (v.length : Int) := by
  simp only [vectorIndexOf, h, if_true]
  exact_mod_cast List.indexOf_lt_length.mpr h

theorem vectorIndexOf_neg {v : List QObjectPtr} {x : QObjectPtr} (h : x ∉ v) :
    vectorIndexOf v x = -1 := by
  simp [vectorIndexOf, h]

theorem mem_of_vectorIndexOf {v : List QObjectPtr} {x : QObjectPtr}
    (h : ¬ vectorIndexOf v x < 0) : x ∈ v := by
  by_contra hx
  rw [vectorIndexOf_neg hx] at h
  exact h (by decide)

theorem getD_vectorIndexOf {v : List QObjectPtr} {x : QObjectPtr} (h : x ∈ v) :
    v.getD (vectorIndexOf v x).toNat nullObj = x := by
  simp only [vectorIndexOf, h, if_true, Int.toNat_ofNat]
  have hlt := List.indexOf_lt_length.mpr h
  rw [List.getD_eq_getElem _ _ hlt]
  exact List.indexOf_get hlt

theorem index_of_row (cc : Int) (m : ObjectTreeModel) (x : QObjectPtr) (parentIndex : QModelIndex)
    (hcc : 0 < cc) (hx : x ∈ m.childrenOf parentIndex.internalPointer) :
    index cc m (vectorIndexOf (m.childrenOf parentIndex.internalPointer) x) 0 parentIndex =
      createIndex (vectorIndexOf (m.childrenOf parentIndex.internalPointer) x) 0 x := by
  have h1 := vectorIndexOf_nonneg hx
  have h2 := vectorIndexOf_lt hx
  unfold index
  simp only
  rw [if_neg (by omega), getD_vectorIndexOf hx]

theorem index_isValid (cc : Int) (m : ObjectTreeModel) (row col : Int) (parentIndex : QModelIndex)
    (h : (index cc m row col parentIndex).isValid = true) :
    0 ≤ row ∧ row < ((m.childrenOf parentIndex.internalPointer).length : Int) ∧ 0 ≤ col ∧ col < cc := by
  unfold index at h
  simp only at h
  split at h
  · simp [isValid_null] at h
  · omega

theorem indexForObject_mono (cc : Int) (m : ObjectTreeModel) :
    ∀ (n k : Nat) (x : QObjectPtr) (i : QModelIndex),
      indexForObject cc m n x = some i → n ≤ k → indexForObject cc m k x = some i := by
  intro n
  induction n with
  | zero => intro k x i h; simp [indexForObject] at h
  | succ n ih =>
    intro k x i h hk
    obtain ⟨k, rfl⟩ : ∃ j, k = j + 1 := ⟨k - 1, by omega⟩
    rw [indexForObject_succ] at h ⊢
    by_cases hx : x = nullObj
    · simpa [hx] using h
    · simp only [hx, if_false] at h ⊢
      cases hp : indexForObject cc m n (m.parentValue x) with
      | none => simp [hp] at h
      | some pi =>
        rw [ih k _ pi hp (by omega)]
        simpa [hp] using h

theorem indexForObject_det (cc : Int) (m : ObjectTreeModel) {n k : Nat} {x : QObjectPtr}
    {i j : QModelIndex} (h1 : indexForObject cc m n x = some i)
    (h2 : indexForObject cc m k x = some j) : i = j := by
  have a := indexForObject_mono cc m n (max n k) x i h1 (le_max_left _ _)
  have b := indexForObject_mono cc m k (max n k) x j h2 (le_max_right _ _)
  rw [a] at b
  exact Option.some.inj b

theorem indexForObject_null (cc : Int) (m : ObjectTreeModel) (fuel : Nat) :
    indexForObject cc m (fuel + 1) nullObj = some QModelIndex.null := by
  simp [indexForObject_succ]

theorem indexForObject_null_eq (cc : Int) (m : ObjectTreeModel) {n : Nat} {i : QModelIndex}
    (h : indexForObject cc m n nullObj = some i) : i = QModelIndex.null := by
  cases n with
  | zero => simp [indexForObject] at h
  | succ n => rw [indexForObject_null] at h; exact (Option.some.inj h).symm

/-- What a valid answer of `indexForObject` says about the node. -/
theorem indexForObject_valid (cc : Int) (m : ObjectTreeModel) :
    ∀ (n : Nat) (x : QObjectPtr) (i : QModelIndex),
      indexForObject cc m n x = some i → i.isValid = true →
        x ≠ nullObj ∧ 0 < cc ∧ x ∈ m.childrenOf (m.parentValue x) ∧ i = rowIndex m x ∧
        ∃ k pi, n = k + 1 ∧ indexForObject cc m k (m.parentValue x) = some pi ∧
          (m.parentValue x = nullObj ∨ pi.isValid = true) := by
  intro n
  induction n with
  | zero => intro x i h; simp [indexForObject] at h
  | succ n ih =>
    intro x i h hv
    rw [indexForObject_succ] at h
    by_cases hx : x = nullObj
    · simp only [hx, if_true] at h
      rw [← Option.some.inj h] at hv
      simp [isValid_null] at hv
    · simp only [hx, if_false] at h
      cases hp : indexForObject cc m n (m.parentValue x) with
      | none => simp [hp] at h
      | some pi =>
        simp only [hp] at h
        split at h
        · rw [← Option.some.inj h] at hv; simp [isValid_null] at hv
        · rename_i hguard
          split at h
          · rw [← Option.some.inj h] at hv; simp [isValid_null] at hv
          · rename_i hrow
            have hmem := mem_of_vectorIndexOf hrow
            have hpar : m.parentValue x = nullObj ∨ pi.isValid = true := by
              by_cases h0 : m.parentValue x = nullObj
              · exact Or.inl h0
              · right
                by_contra hc
                exact hguard ⟨by simpa using hc, h0⟩
            have hptr : pi.internalPointer = m.parentValue x := by
              rcases hpar with h0 | hvalid
              · rw [h0] at hp
                rw [indexForObject_null_eq cc m hp, h0]
                rfl
              · rw [(ih _ _ hp hvalid).2.2.2.1]
                rfl
            have hi := Option.some.inj h
            rw [← hi] at hv
            have hcc := (index_isValid cc m _ _ _ hv).2.2.2
            rw [← hptr] at hmem
            have := index_of_row cc m x pi hcc hmem
            rw [hptr] at this hmem
            refine ⟨hx, hcc, hmem, ?_, n, pi, rfl, hp, hpar⟩
            rw [← hi, this]
            rfl

/-! ## Resolved nodes and chains -/

theorem rowIndex_isValid (m : ObjectTreeModel) {x : QObjectPtr}
    (h : x ∈ m.childrenOf (m.parentValue x)) : (rowIndex m x).isValid = true := by
  have := vectorIndexOf_nonneg h
  simp [rowIndex, createIndex, QModelIndex.isValid, this]

theorem chain_of_indexForObject (cc : Int) (m : ObjectTreeModel) :
    ∀ (n : Nat) (x : QObjectPtr) (i : QModelIndex),
      indexForObject cc m n x = some i → i.isValid = true → Chain cc m (fun _ => True) x := by
  intro n
  induction n with
  | zero => intro x i h; simp [indexForObject] at h
  | succ n ih =>
    intro x i h hv
    obtain ⟨hx, hcc, hmem, -, k, pi, hk, hp, hpar⟩ := indexForObject_valid cc m _ x i h hv
    have hk : k = n := by omega
    subst hk
    by_cases h0 : m.parentValue x = nullObj
    · exact Chain.root x hx trivial hcc h0 (h0 ▸ hmem)
    · rcases hpar with h1 | h1
      · exact absurd h1 h0
      · exact Chain.step x hx trivial hcc hmem (ih _ _ hp h1)

theorem chain_of_resolved {cc : Int} {m : ObjectTreeModel} {x : QObjectPtr}
    (h : Resolved cc m x) : Chain cc m (fun _ => True) x := by
  obtain ⟨n, i, h, hv⟩ := h
  exact chain_of_indexForObject cc m n x i h hv

theorem Chain.mem {cc : Int} {m : ObjectTreeModel} {P : QObjectPtr → Prop} {x : QObjectPtr}
    (h : Chain cc m P x) : x ∈ m.childrenOf (m.parentValue x) := by
  cases h with
  | root _ _ _ _ h0 hmem => rw [h0]; exact hmem
  | step _ _ _ _ hmem _ => exact hmem

theorem Chain.ne_null {cc : Int} {m : ObjectTreeModel} {P : QObjectPtr → Prop} {x : QObjectPtr}
    (h : Chain cc m P x) : x ≠ nullObj := by
  cases h with
  | root _ hz _ _ _ _ => exact hz
  | step _ hz _ _ _ _ => exact hz

theorem Chain.holds {cc : Int} {m : ObjectTreeModel} {P : QObjectPtr → Prop} {x : QObjectPtr}
    (h : Chain cc m P x) : P x := by
  cases h with
  | root _ _ hp _ _ _ => exact hp
  | step _ _ hp _ _ _ => exact hp

theorem indexForObject_of_chain {cc : Int} {m : ObjectTreeModel} {P : QObjectPtr → Prop}
    {x : QObjectPtr} (h : Chain cc m P x) :
    ∃ n, indexForObject cc m n x = some (rowIndex m x) := by
  induction h with
  | root z hz _ hcc h0 hmem =>
    refine ⟨2, ?_⟩
    have hmem2 : z ∈ m.childrenOf (m.parentValue z) := by rw [h0]; exact hmem
    have hrow : ¬ vectorIndexOf (m.childrenOf (m.parentValue z)) z < 0 :=
      not_lt.mpr (vectorIndexOf_nonneg hmem2)
    rw [indexForObject_succ, if_neg hz, h0, indexForObject_null]
    simp only [ne_eq, not_true_eq_false, and_false, if_false]
    rw [h0] at hrow
    rw [if_neg hrow]
    have := index_of_row cc m z QModelIndex.null hcc hmem
    rw [show QModelIndex.null.internalPointer = nullObj from rfl] at this
    rw [this, rowIndex, h0]
  | step z hz _ hcc hmem hsub ih =>
    obtain ⟨n, hn⟩ := ih
    refine ⟨n + 1, ?_⟩
    have hrow : ¬ vectorIndexOf (m.childrenOf (m.parentValue z)) z < 0 :=
      not_lt.mpr (vectorIndexOf_nonneg hmem)
    rw [indexForObject_succ, if_neg hz, hn]
    simp only
    rw [if_neg (by simp [rowIndex_isValid m hsub.mem]), if_neg hrow]
    have := index_of_row cc m z (rowIndex m (m.parentValue z)) hcc hmem
    rw [show (rowIndex m (m.parentValue z)).internalPointer = m.parentValue z from rfl] at this
    rw [this, rowIndex]

theorem resolved_of_chain {cc : Int} {m : ObjectTreeModel} {P : QObjectPtr → Prop}
    {x : QObjectPtr} (h : Chain cc m P x) : Resolved cc m x := by
  obtain ⟨n, hn⟩ := indexForObject_of_chain h
  exact ⟨n, _, hn, rowIndex_isValid m h.mem⟩

theorem not_resolved_of_unresolved {cc : Int} {m : ObjectTreeModel} {x : QObjectPtr}
    (hu : Unresolved cc m x) : ¬ Resolved cc m x := by
  rintro ⟨n, i, h, hv⟩
  obtain ⟨k, j, h2, hj⟩ := hu
  rw [indexForObject_det cc m h h2, hj] at hv
  exact Bool.false_ne_true hv

theorem Chain.imp {cc : Int} {m : ObjectTreeModel} {P Q : QObjectPtr → Prop} {x : QObjectPtr}
    (hpq : ∀ z, P z → Q z) (h : Chain cc m P x) : Chain cc m Q x := by
  induction h with
  | root z hz hp hcc h0 hmem => exact Chain.root z hz (hpq z hp) hcc h0 hmem
  | step z hz hp hcc hmem _ ih => exact Chain.step z hz (hpq z hp) hcc hmem ih

/-- Every node on the chain of a resolved node is resolved, hence differs from any
unresolved node. -/
theorem Chain.avoid {cc : Int} {m : ObjectTreeModel} {P : QObjectPtr → Prop} {x y : QObjectPtr}
    (hy : ¬ Resolved cc m y) (h : Chain cc m P x) : Chain cc m (fun z => P z ∧ z ≠ y) x := by
  induction h with
  | root z hz hp hcc h0 hmem =>
    refine Chain.root z hz ⟨hp, ?_⟩ hcc h0 hmem
    rintro rfl
    exact hy (resolved_of_chain (Chain.root (P := P) z hz hp hcc h0 hmem))
  | step z hz hp hcc hmem hsub ih =>
    refine Chain.step z hz ⟨hp, ?_⟩ hcc hmem ih
    rintro rfl
    exact hy (resolved_of_chain (Chain.step z hz hp hcc hmem hsub))

/-- A chain carries over to another model that keeps, for every node on it, the recorded
parent and the membership in the children sequence of that parent. -/
theorem Chain.transfer {cc : Int} {m m' : ObjectTreeModel} {P Q : QObjectPtr → Prop}
    {x : QObjectPtr}
    (hstep : ∀ z, P z → z ∈ m.childrenOf (m.parentValue z) →
      Q z ∧ m'.parentValue z = m.parentValue z ∧ z ∈ m'.childrenOf (m.parentValue z))
    (h : Chain cc m P x) : Chain cc m' Q x := by
  induction h with
  | root z hz hp hcc h0 hmem =>
    obtain ⟨hq, hpv, hm⟩ := hstep z hp (by rw [h0]; exact hmem)
    rw [h0] at hpv hm
    exact Chain.root z hz hq hcc hpv hm
  | step z hz hp hcc hmem _ ih =>
    obtain ⟨hq, hpv, hm⟩ := hstep z hp hmem
    refine Chain.step z hz hq hcc ?_ ?_
    · rw [hpv]; exact hm
    · rw [hpv]; exact ih

/-! ## The cases of `objectAdded` -/

theorem insertRow_eq {cc : Int} {probe : Probe} {fuel : Nat} {m : ObjectTreeModel}
    {obj : QObjectPtr} {idx : QModelIndex}
    (h : indexForObject cc m fuel (probe.parent obj) = some idx) :
    insertRow cc probe fuel m obj = some (appendRow m idx (probe.parent obj) obj) := by
  simp [insertRow, h]

theorem objectAdded_dead {cc : Int} {probe : Probe} (fuel : Nat) (m : ObjectTreeModel)
    {obj : QObjectPtr} (hv : probe.isValidObject obj = false) :
    objectAdded cc probe (fuel + 1) m obj = some m := by
  simp [objectAdded, hv]

theorem objectAdded_indexed {cc : Int} {probe : Probe} {fuel : Nat} {m : ObjectTreeModel}
    {obj : QObjectPtr} {own : QModelIndex}
    (hown : indexForObject cc m fuel obj = some own) (hvalid : own.isValid = true) :
    objectAdded cc probe (fuel + 1) m obj = some m := by
  by_cases hv : probe.isValidObject obj = false
  · exact objectAdded_dead fuel m hv
  · simp [objectAdded, hv, hown, hvalid]

theorem objectAdded_root {cc : Int} {probe : Probe} {fuel : Nat} {m : ObjectTreeModel}
    {obj : QObjectPtr} {own : QModelIndex} (hv : probe.isValidObject obj = true)
    (hown : indexForObject cc m fuel obj = some own) (hinvalid : own.isValid = false)
    (hp : probe.parent obj = nullObj) :
    objectAdded cc probe (fuel + 1) m obj = insertRow cc probe fuel m obj := by
  simp [objectAdded, hv, hown, hinvalid, hp]

theorem objectAdded_parent_indexed {cc : Int} {probe : Probe} {fuel : Nat} {m : ObjectTreeModel}
    {obj : QObjectPtr} {own idx : QModelIndex} (hv : probe.isValidObject obj = true)
    (hown : indexForObject cc m fuel obj = some own) (hinvalid : own.isValid = false)
    (hidx : indexForObject cc m fuel (probe.parent obj) = some idx) (hvalid : idx.isValid = true) :
    objectAdded cc probe (fuel + 1) m obj = insertRow cc probe fuel m obj := by
  by_cases hp : probe.parent obj = nullObj
  · exact objectAdded_root hv hown hinvalid hp
  · simp [objectAdded, hv, hown, hinvalid, hp, hidx, hvalid]

theorem objectAdded_parent_first {cc : Int} {probe : Probe} {fuel : Nat} {m m1 : ObjectTreeModel}
    {obj : QObjectPtr} {own idx : QModelIndex} (hv : probe.isValidObject obj = true)
    (hown : indexForObject cc m fuel obj = some own) (hinvalid : own.isValid = false)
    (hp : probe.parent obj ≠ nullObj)
    (hidx : indexForObject cc m fuel (probe.parent obj) = some idx) (hidx2 : idx.isValid = false)
    (hrec : objectAdded cc probe fuel m (probe.parent obj) = some m1) :
    objectAdded cc probe (fuel + 1) m obj = insertRow cc probe fuel m1 obj := by
  simp [objectAdded, hv, hown, hinvalid, hp, hidx, hidx2, hrec]

theorem insertRow_mono {cc : Int} {probe : Probe} {n k : Nat} {m m' : ObjectTreeModel}
    {obj : QObjectPtr} (h : insertRow cc probe n m obj = some m') (hk : n ≤ k) :
    insertRow cc probe k m obj = some m' := by
  unfold insertRow at h ⊢
  cases hp : indexForObject cc m n (probe.parent obj) with
  | none => simp [hp] at h
  | some idx =>
    rw [indexForObject_mono cc m n k _ idx hp hk]
    simpa [hp] using h

theorem objectAdded_mono (cc : Int) (probe : Probe) :
    ∀ (n k : Nat) (m m' : ObjectTreeModel) (obj : QObjectPtr),
      objectAdded cc probe n m obj = some m' → n ≤ k →
        objectAdded cc probe k m obj = some m' := by
  intro n
  induction n with
  | zero => intro k m m' obj h; simp [objectAdded] at h
  | succ n ih =>
    intro k m m' obj h hk
    obtain ⟨k, rfl⟩ : ∃ j, k = j + 1 := ⟨k - 1, by omega⟩
    have hnk : n ≤ k := by omega
    by_cases hv : probe.isValidObject obj = false
    · rw [objectAdded_dead n m hv] at h
      rw [objectAdded_dead k m hv]
      exact h
    · have hv : probe.isValidObject obj = true := by simpa using hv
      cases hown : indexForObject cc m n obj with
      | none => simp [objectAdded, hv, hown] at h
      | some own =>
        have hown2 := indexForObject_mono cc m n k _ own hown hnk
        cases hvalid : own.isValid with
        | true =>
          rw [objectAdded_indexed hown hvalid] at h
          rw [objectAdded_indexed hown2 hvalid]
          exact h
        | false =>
          by_cases hp : probe.parent obj = nullObj
          · rw [objectAdded_root hv hown hvalid hp] at h
            rw [objectAdded_root hv hown2 hvalid hp]
            exact insertRow_mono h hnk
          · cases hidx : indexForObject cc m n (probe.parent obj) with
            | none => simp [objectAdded, hv, hown, hvalid, hp, hidx] at h
            | some idx =>
              have hidx2 := indexForObject_mono cc m n k _ idx hidx hnk
              cases hiv : idx.isValid with
              | true =>
                rw [objectAdded_parent_indexed hv hown hvalid hidx hiv] at h
                rw [objectAdded_parent_indexed hv hown2 hvalid hidx2 hiv]
                exact insertRow_mono h hnk
              | false =>
                cases hrec : objectAdded cc probe n m (probe.parent obj) with
                | none => simp [objectAdded, hv, hown, hvalid, hp, hidx, hiv, hrec] at h
                | some m1 =>
                  rw [objectAdded_parent_first hv hown hvalid hp hidx hiv hrec] at h
                  rw [objectAdded_parent_first hv hown2 hvalid hp hidx2 hiv
                    (ih k m m1 _ hrec hnk)]
                  exact insertRow_mono h hnk

/-! ## Appending a row -/

theorem childrenOf_appendRow (m : ObjectTreeModel) (idx : QModelIndex) (p x q : QObjectPtr) :
    (appendRow m idx p x).childrenOf q =
      if q = p then m.childrenOf p ++ [x] else m.childrenOf q := by
  unfold appendRow ObjectTreeModel.childrenOf hashInsert
  by_cases h : q = p <;> simp [h]

theorem parentMap_appendRow (m : ObjectTreeModel) (idx : QModelIndex) (p x z : QObjectPtr) :
    (appendRow m idx p x).m_childParentMap z =
      if z = x then some p else m.m_childParentMap z := by
  rfl

theorem parentValue_appendRow (m : ObjectTreeModel) (idx : QModelIndex) (p x z : QObjectPtr) :
    (appendRow m idx p x).parentValue z = if z = x then p else m.parentValue z := by
  unfold ObjectTreeModel.parentValue
  rw [parentMap_appendRow]
  by_cases h : z = x <;> simp [h]

theorem mem_childrenOf_appendRow {m : ObjectTreeModel} (idx : QModelIndex) (p x : QObjectPtr)
    {q z : QObjectPtr} (h : z ∈ m.childrenOf q) : z ∈ (appendRow m idx p x).childrenOf q := by
  rw [childrenOf_appendRow]
  by_cases hq : q = p
  · subst hq; simp [h]
  · simp [hq, h]

/-- A chain that does not pass through `x` survives the insertion of `x`. -/
theorem Chain.appendRow {cc : Int} {m : ObjectTreeModel} {P : QObjectPtr → Prop}
    (idx : QModelIndex) (p : QObjectPtr) {x c : QObjectPtr}
    (h : Chain cc m (fun z => P z ∧ z ≠ x) c) : Chain cc (GammaRay.appendRow m idx p x) P c := by
  refine Chain.transfer ?_ h
  intro z hz hmem
  refine ⟨hz.1, ?_, mem_childrenOf_appendRow idx p x hmem⟩
  rw [parentValue_appendRow, if_neg hz.2]

/-- The inserted node is resolved once its parent is null or resolved along a chain that
avoids the node. -/
theorem chain_appendRow_self {cc : Int} {m : ObjectTreeModel} {P : QObjectPtr → Prop}
    (idx : QModelIndex) {p x : QObjectPtr} (hcc : 0 < cc) (hx : x ≠ nullObj) (hP : P x)
    (hp : p = nullObj ∨ Chain cc m (fun z => P z ∧ z ≠ x) p) :
    Chain cc (appendRow m idx p x) P x := by
  have hpv : (appendRow m idx p x).parentValue x = p := by
    rw [parentValue_appendRow, if_pos rfl]
  have hmem : x ∈ (appendRow m idx p x).childrenOf p := by
    rw [childrenOf_appendRow, if_pos rfl]; simp
  rcases hp with h0 | hch
  · subst h0
    exact Chain.root x hx hP hcc hpv hmem
  · refine Chain.step x hx hP hcc ?_ ?_
    · rw [hpv]; exact hmem
    · rw [hpv]; exact Chain.appendRow idx p hch

/-! ## The invariants -/

theorem resolved_has_entry {cc : Int} {m : ObjectTreeModel} (hmi : MutualInverse m)
    {x : QObjectPtr} (h : Resolved cc m x) : m.m_childParentMap x = some (m.parentValue x) :=
  hmi.2 _ _ (chain_of_resolved h).mem

theorem not_resolved_of_no_entry {cc : Int} {m : ObjectTreeModel} (hmi : MutualInverse m)
    {x : QObjectPtr} (h : m.m_childParentMap x = none) : ¬ Resolved cc m x := by
  intro hr
  rw [resolved_has_entry hmi hr] at h
  exact Option.some_ne_none _ h

theorem not_mem_of_no_entry {m : ObjectTreeModel} (hmi : MutualInverse m)
    {x : QObjectPtr} (h : m.m_childParentMap x = none) (q : QObjectPtr) : x ∉ m.childrenOf q := by
  intro hq
  rw [hmi.2 _ _ hq] at h
  exact Option.some_ne_none _ h

/-- In a model whose maps are mutual inverses a node without child→parent entry has no
position, and `indexForObject` finds that out with two units of fuel. -/
theorem indexForObject_no_entry {cc : Int} {m : ObjectTreeModel} (hmi : MutualInverse m)
    {x : QObjectPtr} (h : m.m_childParentMap x = none) (fuel : Nat) :
    indexForObject cc m (fuel + 2) x = some QModelIndex.null := by
  rw [indexForObject_succ]
  by_cases hx : x = nullObj
  · simp [hx]
  · have hpv : m.parentValue x = nullObj := by simp [ObjectTreeModel.parentValue, h]
    rw [if_neg hx, hpv, indexForObject_null]
    simp only [ne_eq, not_true_eq_false, and_false, if_false]
    rw [vectorIndexOf_neg (not_mem_of_no_entry hmi h _)]
    simp

theorem consistent_appendRow {cc : Int} {m : ObjectTreeModel} (idx : QModelIndex)
    {p x : QObjectPtr} (hcc : 0 < cc) (hc : Consistent cc m) (hx : x ≠ nullObj)
    (hentry : m.m_childParentMap x = none) (hp : p = nullObj ∨ Resolved cc m p) :
    Consistent cc (appendRow m idx p x) ∧ Resolved cc (appendRow m idx p x) x := by
  obtain ⟨hmi, hres⟩ := hc
  have hnr : ¬ Resolved cc m x := not_resolved_of_no_entry hmi hentry
  have hself : Chain cc (appendRow m idx p x) (fun _ => True) x := by
    refine chain_appendRow_self idx hcc hx trivial ?_
    rcases hp with h0 | hr
    · exact Or.inl h0
    · exact Or.inr ((chain_of_resolved hr).avoid hnr)
  refine ⟨⟨⟨?_, ?_⟩, ?_⟩, resolved_of_chain hself⟩
  · intro c q hcq
    rw [parentMap_appendRow] at hcq
    rw [childrenOf_appendRow]
    by_cases hcx : c = x
    · subst hcx
      rw [if_pos rfl] at hcq
      have hq : p = q := Option.some.inj hcq
      subst hq
      rw [if_pos rfl, List.count_append,
        List.count_eq_zero_of_not_mem (not_mem_of_no_entry hmi hentry _)]
      simp
    · rw [if_neg hcx] at hcq
      have h1 := hmi.1 c q hcq
      by_cases hq : q = p
      · subst hq
        rw [if_pos rfl, List.count_append, h1]
        simp [List.count_singleton, hcx]
      · rw [if_neg hq]; exact h1
  · intro q c hmem
    rw [childrenOf_appendRow] at hmem
    rw [parentMap_appendRow]
    by_cases hq : q = p
    · subst hq
      rw [if_pos rfl, List.mem_append, List.mem_singleton] at hmem
      rcases hmem with h1 | h1
      · have hcx : c ≠ x := by
          rintro rfl
          exact not_mem_of_no_entry hmi hentry _ h1
        rw [if_neg hcx]; exact hmi.2 _ _ h1
      · rw [if_pos h1]
    · rw [if_neg hq] at hmem
      have hcx : c ≠ x := by
        rintro rfl
        exact not_mem_of_no_entry hmi hentry _ hmem
      rw [if_neg hcx]; exact hmi.2 _ _ hmem
  · intro c q hcq
    rw [parentMap_appendRow] at hcq
    by_cases hcx : c = x
    · subst hcx; exact resolved_of_chain hself
    · rw [if_neg hcx] at hcq
      exact resolved_of_chain (Chain.appendRow idx p ((chain_of_resolved (hres c q hcq)).avoid hnr))

/-! ## `objectAdded` on a consistent model -/

theorem chainLength_unique (probe : Probe) :
    ∀ (d e : Nat) (x : QObjectPtr), chainLength probe d x = true → chainLength probe e x = true →
      d = e := by
  intro d
  induction d with
  | zero =>
    intro e x h1 h2
    cases e with
    | zero => rfl
    | succ e => simp [chainLength] at h1 h2; exact absurd h1 h2.1
  | succ d ih =>
    intro e x h1 h2
    cases e with
    | zero => simp [chainLength] at h1 h2; exact absurd h2 h1.1
    | succ e =>
      simp only [chainLength, Bool.and_eq_true, decide_eq_true_eq] at h1 h2
      rw [ih e _ h1.2 h2.2]

/-- On a consistent model, a live object whose parents are live and whose parent chain is
finite is inserted by `objectAdded`, together with its missing ancestors; the model stays
consistent; every child→parent entry is either untouched or the source-graph parent of a
node of the parent chain. -/
theorem objectAdded_consistent {cc : Int} {probe : Probe} (hcc : 0 < cc)
    (hprobe : probe.ParentsLive) :
    ∀ (d : Nat) (m : ObjectTreeModel) (x : QObjectPtr),
      Consistent cc m → chainLength probe d x = true → probe.isValidObject x = true →
      ∃ N m', (∀ fuel, N ≤ fuel → objectAdded cc probe fuel m x = some m') ∧
        Consistent cc m' ∧ Resolved cc m' x ∧
        (∀ z, m'.m_childParentMap z = m.m_childParentMap z ∨
          (m'.m_childParentMap z = some (probe.parent z) ∧ z ≠ nullObj ∧
            ∃ e, e ≤ d ∧ chainLength probe e z = true)) ∧
        (m.m_childParentMap x = none → m'.m_childParentMap x = some (probe.parent x)) := by
  intro d
  induction d with
  | zero =>
    intro m x _ hd hv
    simp only [chainLength, decide_eq_true_eq] at hd
    rw [hd, hprobe.1] at hv
    exact absurd hv Bool.false_ne_true
  | succ d ih =>
    intro m x hc hd hv
    have hd0 := hd
    simp only [chainLength, Bool.and_eq_true, decide_eq_true_eq] at hd
    obtain ⟨hx, hdp⟩ := hd
    cases hentry : m.m_childParentMap x with
    | some q =>
      obtain ⟨n, own, hown, hvalid⟩ := hc.2 x q hentry
      refine ⟨n + 1, m, ?_, hc, ⟨n, own, hown, hvalid⟩, fun z => Or.inl rfl, ?_⟩
      · intro fuel hf
        exact objectAdded_mono cc probe (n + 1) fuel m m x (objectAdded_indexed hown hvalid) hf
      · intro h; exact absurd h (Option.some_ne_none _)
    | none =>
      have hown : ∀ fuel, indexForObject cc m (fuel + 2) x = some QModelIndex.null :=
        indexForObject_no_entry hc.1 hentry
      -- the model in which the row is appended, and the position of the parent in it
      have key : ∃ N mX idx, (∀ fuel, N ≤ fuel →
            objectAdded cc probe fuel m x = some (appendRow mX idx (probe.parent x) x)) ∧
          Consistent cc mX ∧ mX.m_childParentMap x = none ∧
          (probe.parent x = nullObj ∨ Resolved cc mX (probe.parent x)) ∧
          (∀ z, mX.m_childParentMap z = m.m_childParentMap z ∨
            (mX.m_childParentMap z = some (probe.parent z) ∧ z ≠ nullObj ∧
              ∃ e, e ≤ d ∧ chainLength probe e z = true)) := by
        by_cases hp : probe.parent x = nullObj
        · refine ⟨3, m, QModelIndex.null, ?_, hc, hentry, Or.inl hp, fun z => Or.inl rfl⟩
          intro fuel hf
          obtain ⟨k, rfl⟩ : ∃ k, fuel = k + 2 + 1 := ⟨fuel - 3, by omega⟩
          rw [objectAdded_root hv (hown k) isValid_null hp]
          apply insertRow_eq
          rw [hp]
          exact indexForObject_null cc m (k + 1)
        · have hpv : probe.isValidObject (probe.parent x) = true := by
            rcases hprobe.2 x hv with h | h
            · exact absurd h hp
            · exact h
          cases hpe : m.m_childParentMap (probe.parent x) with
          | some q =>
            obtain ⟨n, idx, hidx, hiv⟩ := hc.2 _ q hpe
            refine ⟨n + 3, m, idx, ?_, hc, hentry, Or.inr ⟨n, idx, hidx, hiv⟩, fun z => Or.inl rfl⟩
            intro fuel hf
            obtain ⟨k, rfl⟩ : ∃ k, fuel = k + 2 + 1 := ⟨fuel - 3, by omega⟩
            have hidx2 := indexForObject_mono cc m n (k + 2) _ idx hidx (by omega)
            rw [objectAdded_parent_indexed hv (hown k) isValid_null hidx2 hiv]
            exact insertRow_eq hidx2
          | none =>
            obtain ⟨N1, m1, hrun, hc1, ⟨n1, idx1, hidx1, hiv1⟩, hframe, -⟩ :=
              ih m (probe.parent x) hc hdp hpv
            have hx1 : m1.m_childParentMap x = none := by
              rcases hframe x with h | ⟨-, -, e, he, hce⟩
              · rw [h]; exact hentry
              · have := chainLength_unique probe _ _ x hd0 hce
                omega
            refine ⟨max N1 n1 + 3, m1, idx1, ?_, hc1, hx1, Or.inr ⟨n1, idx1, hidx1, hiv1⟩, hframe⟩
            intro fuel hf
            obtain ⟨k, rfl⟩ : ∃ k, fuel = k + 2 + 1 := ⟨fuel - 3, by omega⟩
            have hidx := @indexForObject_no_entry cc m hc.1 (probe.parent x) hpe k
            rw [objectAdded_parent_first hv (hown k) isValid_null hp hidx isValid_null
              (hrun (k + 2) (by omega))]
            exact insertRow_eq (indexForObject_mono cc m1 n1 (k + 2) _ idx1 hidx1 (by omega))
      obtain ⟨N, mX, idx, hrun, hcX, hxX, hpX, hframe⟩ := key
      obtain ⟨hc', hres'⟩ := consistent_appendRow idx hcc hcX hx hxX hpX
      refine ⟨N, _, hrun, hc', hres', ?_, ?_⟩
      · intro z
        rw [parentMap_appendRow]
        by_cases hz : z = x
        · subst hz
          right
          rw [if_pos rfl]
          exact ⟨rfl, hx, d + 1, le_refl _, hd0⟩
        · rw [if_neg hz]
          rcases hframe z with h | ⟨h1, h2, e, he, hce⟩
          · exact Or.inl h
          · exact Or.inr ⟨h1, h2, e, by omega, hce⟩
      · intro _
        rw [parentMap_appendRow, if_pos rfl]

/-! ## The cases of `objectRemoved` -/

theorem parentValue_of_entry {m : ObjectTreeModel} {x p : QObjectPtr}
    (h : m.m_childParentMap x = some p) : m.parentValue x = p := by
  simp [ObjectTreeModel.parentValue, h]

theorem objectRemoved_absent {cc : Int} (fuel : Nat) {m : ObjectTreeModel} {x : QObjectPtr}
    (h : m.m_childParentMap x = none) : objectRemoved cc fuel m x = some m := by
  simp [objectRemoved, h]

theorem objectRemoved_unresolved {cc : Int} {fuel : Nat} {m : ObjectTreeModel}
    {x p : QObjectPtr} {pidx : QModelIndex} (h : m.m_childParentMap x = some p)
    (hp : p ≠ nullObj) (hidx : indexForObject cc m fuel p = some pidx)
    (hinvalid : pidx.isValid = false) : objectRemoved cc fuel m x = some m := by
  simp [objectRemoved, h, parentValue_of_entry h, hidx, hp, hinvalid]

theorem objectRemoved_missing {cc : Int} {fuel : Nat} {m : ObjectTreeModel}
    {x p : QObjectPtr} {pidx : QModelIndex} (h : m.m_childParentMap x = some p)
    (hidx : indexForObject cc m fuel p = some pidx)
    (hp : p = nullObj ∨ pidx.isValid = true) (hmem : x ∉ m.childrenOf p) :
    objectRemoved cc fuel m x = some (touchSiblings m p) := by
  have hguard : ¬ (p ≠ nullObj ∧ pidx.isValid = false) := by
    rintro ⟨h1, h2⟩
    rcases hp with h3 | h3
    · exact h1 h3
    · rw [h3] at h2; exact Bool.noConfusion h2
  simp only [objectRemoved, h, parentValue_of_entry h, hidx, if_neg hguard,
    vectorIndexOf_neg hmem]
  simp

theorem objectRemoved_row {cc : Int} {fuel : Nat} {m : ObjectTreeModel}
    {x p : QObjectPtr} {pidx : QModelIndex} (h : m.m_childParentMap x = some p)
    (hidx : indexForObject cc m fuel p = some pidx)
    (hp : p = nullObj ∨ pidx.isValid = true) (hmem : x ∈ m.childrenOf p) :
    objectRemoved cc fuel m x =
      some (eraseRow m pidx p x (vectorIndexOf (m.childrenOf p) x)) := by
  have hguard : ¬ (p ≠ nullObj ∧ pidx.isValid = false) := by
    rintro ⟨h1, h2⟩
    rcases hp with h3 | h3
    · exact h1 h3
    · rw [h3] at h2; exact Bool.noConfusion h2
  have hrow : vectorIndexOf (m.childrenOf p) x ≠ -1 := by
    have := vectorIndexOf_nonneg hmem
    omega
  simp only [objectRemoved, h, parentValue_of_entry h, hidx, if_neg hguard, if_neg hrow]
  simp

/-! ## Erasing a row -/

theorem eraseIdx_vectorIndexOf {v : List QObjectPtr} {x : QObjectPtr} (h : x ∈ v) :
    v.eraseIdx (vectorIndexOf v x).toNat = v.erase x := by
  simp only [vectorIndexOf, h, if_true, Int.toNat_ofNat]
  exact List.eraseIdx_indexOf_eq_erase x v

theorem childrenOf_eraseRow (m : ObjectTreeModel) (pidx : QModelIndex) (p x q : QObjectPtr)
    (row : Int) :
    (eraseRow m pidx p x row).childrenOf q =
      if q = x then [] else if q = p then (m.childrenOf p).eraseIdx row.toNat
      else m.childrenOf q := by
  unfold eraseRow ObjectTreeModel.childrenOf hashRemove hashInsert
  by_cases h : q = x
  · simp [h]
  · by_cases h2 : q = p
    · subst h2; simp [h]
    · simp [h, h2]

theorem parentMap_eraseRow (m : ObjectTreeModel) (pidx : QModelIndex) (p x z : QObjectPtr)
    (row : Int) :
    (eraseRow m pidx p x row).m_childParentMap z =
      if z = x then none else m.m_childParentMap z := by
  rfl

theorem parentValue_eraseRow (m : ObjectTreeModel) (pidx : QModelIndex) (p x : QObjectPtr)
    (row : Int) {z : QObjectPtr} (hz : z ≠ x) :
    (eraseRow m pidx p x row).parentValue z = m.parentValue z := by
  unfold ObjectTreeModel.parentValue
  rw [parentMap_eraseRow, if_neg hz]

/-- The chain of a node other than a childless node `x` does not pass through `x`. -/
theorem Chain.avoid_leaf {cc : Int} {m : ObjectTreeModel} {P : QObjectPtr → Prop}
    {x c : QObjectPtr} (hleaf : m.childrenOf x = []) (h : Chain cc m P c) (hc : c ≠ x) :
    Chain cc m (fun z => P z ∧ z ≠ x) c := by
  induction h with
  | root z hz hp hcc h0 hmem => exact Chain.root z hz ⟨hp, hc⟩ hcc h0 hmem
  | step z hz hp hcc hmem _ ih =>
    refine Chain.step z hz ⟨hp, hc⟩ hcc hmem (ih ?_)
    intro hpx
    rw [hpx, hleaf] at hmem
    exact List.not_mem_nil _ hmem

theorem consistent_eraseRow {cc : Int} {m : ObjectTreeModel} (pidx : QModelIndex)
    {p x : QObjectPtr} (hc : Consistent cc m) (hentry : m.m_childParentMap x = some p)
    (hleaf : m.childrenOf x = []) :
    Consistent cc (eraseRow m pidx p x (vectorIndexOf (m.childrenOf p) x)) := by
  obtain ⟨hmi, hres⟩ := hc
  have hcount := hmi.1 x p hentry
  have hmem : x ∈ m.childrenOf p := List.count_pos_iff.mp (by omega)
  have hpx : p ≠ x := by
    rintro rfl
    rw [hleaf] at hmem
    exact List.not_mem_nil _ hmem
  have hchildren : ∀ q, (eraseRow m pidx p x (vectorIndexOf (m.childrenOf p) x)).childrenOf q =
      if q = x then [] else if q = p then (m.childrenOf p).erase x else m.childrenOf q := by
    intro q
    rw [childrenOf_eraseRow, eraseIdx_vectorIndexOf hmem]
  have hnotleaf : ∀ c q, c ∈ m.childrenOf q → q ≠ x := by
    rintro c q hcq rfl
    rw [hleaf] at hcq
    exact List.not_mem_nil _ hcq
  refine ⟨⟨?_, ?_⟩, ?_⟩
  · intro c q hcq
    rw [parentMap_eraseRow] at hcq
    by_cases hcx : c = x
    · rw [if_pos hcx] at hcq; exact absurd hcq (Option.noConfusion)
    · rw [if_neg hcx] at hcq
      have h1 := hmi.1 c q hcq
      have hq : q ≠ x := hnotleaf c q (List.count_pos_iff.mp (by omega))
      rw [hchildren, if_neg hq]
      by_cases hqp : q = p
      · subst hqp
        rw [if_pos rfl, List.count_erase_of_ne hcx]; exact h1
      · rw [if_neg hqp]; exact h1
  · intro q c hmem'
    rw [hchildren] at hmem'
    by_cases hq : q = x
    · rw [if_pos hq] at hmem'; exact absurd hmem' (List.not_mem_nil _)
    · rw [if_neg hq] at hmem'
      have hsub : c ∈ m.childrenOf q := by
        by_cases hqp : q = p
        · subst hqp
          rw [if_pos rfl] at hmem'
          exact List.mem_of_mem_erase hmem'
        · rw [if_neg hqp] at hmem'; exact hmem'
      have hcx : c ≠ x := by
        rintro rfl
        have hqp : q = p := by
          have := hmi.2 _ _ hsub
          rw [hentry] at this
          exact (Option.some.inj this).symm
        subst hqp
        rw [if_pos rfl] at hmem'
        have h0 : List.count c ((m.childrenOf q).erase c) = 0 := by
          rw [List.count_erase_self, hcount]
        exact List.count_eq_zero.mp h0 hmem'
      rw [parentMap_eraseRow, if_neg hcx]
      exact hmi.2 _ _ hsub
  · intro c q hcq
    rw [parentMap_eraseRow] at hcq
    by_cases hcx : c = x
    · rw [if_pos hcx] at hcq; exact absurd hcq (Option.noConfusion)
    · rw [if_neg hcx] at hcq
      have hch := (chain_of_resolved (hres c q hcq)).avoid_leaf hleaf hcx
      refine resolved_of_chain (P := fun _ => True) (Chain.transfer ?_ hch)
      intro z hz hzmem
      refine ⟨trivial, parentValue_eraseRow m pidx p x _ hz.2, ?_⟩
      rw [hchildren, if_neg (hnotleaf z _ hzmem)]
      by_cases hqp : m.parentValue z = p
      · rw [if_pos hqp, ← hqp]
        exact (List.mem_erase_of_ne hz.2).mpr hzmem
      · rw [if_neg hqp]; exact hzmem

/-- Removing a node without children keeps the model consistent. -/
theorem objectRemoved_consistent {cc : Int} {fuel : Nat} {m m' : ObjectTreeModel}
    {x : QObjectPtr} (hc : Consistent cc m) (hleaf : m.childrenOf x = [])
    (h : objectRemoved cc fuel m x = some m') : Consistent cc m' := by
  cases hentry : m.m_childParentMap x with
  | none =>
    rw [objectRemoved_absent fuel hentry] at h
    rw [← Option.some.inj h]; exact hc
  | some p =>
    cases hidx : indexForObject cc m fuel p with
    | none => simp [objectRemoved, hentry, parentValue_of_entry hentry, hidx] at h
    | some pidx =>
      have hch := chain_of_resolved (hc.2 x p hentry)
      have hmem : x ∈ m.childrenOf p := by
        have := hch.mem
        rwa [parentValue_of_entry hentry] at this
      have hp : p = nullObj ∨ pidx.isValid = true := by
        by_cases h0 : p = nullObj
        · exact Or.inl h0
        · right
          cases hch with
          | root _ _ _ _ h1 _ => rw [parentValue_of_entry hentry] at h1; exact absurd h1 h0
          | step _ _ _ _ _ hsub =>
            rw [parentValue_of_entry hentry] at hsub
            obtain ⟨n, i, hi, hiv⟩ := resolved_of_chain hsub
            rw [indexForObject_det cc m hidx hi]; exact hiv
      rw [objectRemoved_row hentry hidx hp hmem] at h
      rw [← Option.some.inj h]
      exact consistent_eraseRow pidx hc hentry hleaf

/-! ## More fuel never changes a result -/

theorem objectRemoved_mono {cc : Int} {n k : Nat} {m m' : ObjectTreeModel} {x : QObjectPtr}
    (h : objectRemoved cc n m x = some m') (hk : n ≤ k) :
    objectRemoved cc k m x = some m' := by
  cases hentry : m.m_childParentMap x with
  | none =>
    rw [objectRemoved_absent n hentry] at h
    rw [objectRemoved_absent k hentry]; exact h
  | some p =>
    cases hidx : indexForObject cc m n p with
    | none => simp [objectRemoved, hentry, parentValue_of_entry hentry, hidx] at h
    | some pidx =>
      have hidx2 := indexForObject_mono cc m n k _ pidx hidx hk
      by_cases hguard : p ≠ nullObj ∧ pidx.isValid = false
      · rw [objectRemoved_unresolved hentry hguard.1 hidx hguard.2] at h
        rw [objectRemoved_unresolved hentry hguard.1 hidx2 hguard.2]; exact h
      · have hp : p = nullObj ∨ pidx.isValid = true := by
          by_cases h0 : p = nullObj
          · exact Or.inl h0
          · right
            by_contra hc
            exact hguard ⟨h0, by simpa using hc⟩
        by_cases hmem : x ∈ m.childrenOf p
        · rw [objectRemoved_row hentry hidx hp hmem] at h
          rw [objectRemoved_row hentry hidx2 hp hmem]; exact h
        · rw [objectRemoved_missing hentry hidx hp hmem] at h
          rw [objectRemoved_missing hentry hidx2 hp hmem]; exact h

theorem objectReparanted_mono {cc : Int} {probe : Probe} {n k : Nat} {m m' : ObjectTreeModel}
    {x : QObjectPtr} (h : objectReparanted cc probe n m x = some m') (hk : n ≤ k) :
    objectReparanted cc probe k m x = some m' := by
  unfold objectReparanted at h ⊢
  cases hv : probe.isValidObject x with
  | false =>
    simp only [hv] at h ⊢
    exact objectRemoved_mono h hk
  | true =>
    simp only [hv, if_true] at h ⊢
    cases hadd : objectAdded cc probe n m x with
    | none => simp [hadd] at h
    | some m1 =>
      simp only [hadd] at h
      rw [objectAdded_mono cc probe n k m m1 x hadd hk]
      exact objectRemoved_mono h hk

/-! ## Sequences of events -/

theorem consistent_empty (cc : Int) : Consistent cc ObjectTreeModel.empty := by
  refine ⟨⟨?_, ?_⟩, ?_⟩
  · intro c p h; exact absurd h (Option.noConfusion)
  · intro p c h; exact absurd h (List.not_mem_nil _)
  · intro c p h; exact absurd h (Option.noConfusion)

/-- One `objectAdded` under a well-behaved source graph: whatever fuel made it return,
the result is the consistent model of `objectAdded_consistent`. -/
theorem objectAdded_consistent_of_eq {cc : Int} {probe : Probe} (hcc : 0 < cc)
    (hprobe : probe.ParentsLive) {d fuel : Nat} {m m1 : ObjectTreeModel} {x : QObjectPtr}
    (hc : Consistent cc m) (hd : probe.isValidObject x = true → chainLength probe d x = true)
    (h : objectAdded cc probe fuel m x = some m1) :
    Consistent cc m1 ∧
      (∀ z, m1.m_childParentMap z = m.m_childParentMap z ∨
        (m1.m_childParentMap z = some (probe.parent z) ∧ z ≠ nullObj ∧
          ∃ e, e ≤ d ∧ chainLength probe e z = true)) := by
  cases hv : probe.isValidObject x with
  | false =>
    obtain ⟨k, rfl⟩ : ∃ k, fuel = k + 1 := by
      cases fuel with
      | zero => simp [objectAdded] at h
      | succ k => exact ⟨k, rfl⟩
    rw [objectAdded_dead k m hv] at h
    rw [← Option.some.inj h]
    exact ⟨hc, fun z => Or.inl rfl⟩
  | true =>
    obtain ⟨N, m2, hrun, hc2, -, hframe, -⟩ :=
      objectAdded_consistent hcc hprobe d m x hc (hd hv) hv
    have h1 := objectAdded_mono cc probe fuel (max fuel N) m m1 x h (le_max_left _ _)
    rw [hrun _ (le_max_right _ _)] at h1
    rw [← Option.some.inj h1]
    exact ⟨hc2, hframe⟩

/-- The children sequence of a live object stays empty when the object and its missing
ancestors are inserted. -/
theorem childrenOf_eq_nil_of_frame {cc : Int} {probe : Probe} {d : Nat}
    {m m1 : ObjectTreeModel} {x : QObjectPtr} (hc : Consistent cc m) (hc1 : Consistent cc m1)
    (hd : chainLength probe d x = true) (hleaf : m.childrenOf x = [])
    (hframe : ∀ z, m1.m_childParentMap z = m.m_childParentMap z ∨
        (m1.m_childParentMap z = some (probe.parent z) ∧ z ≠ nullObj ∧
          ∃ e, e ≤ d ∧ chainLength probe e z = true)) :
    m1.childrenOf x = [] := by
  apply List.eq_nil_iff_forall_not_mem.mpr
  intro c hmem
  have hentry := hc1.1.2 x c hmem
  rcases hframe c with h | ⟨h, hc0, e, he, hce⟩
  · rw [h] at hentry
    have := hc.1.1 c x hentry
    rw [hleaf] at this
    simp at this
  · rw [hentry] at h
    have hpx : probe.parent c = x := (Option.some.inj h).symm
    cases e with
    | zero => simp [chainLength] at hce; exact hc0 hce
    | succ e =>
      simp only [chainLength, Bool.and_eq_true, decide_eq_true_eq] at hce
      rw [hpx] at hce
      have := chainLength_unique probe _ _ x hd hce.2
      omega

theorem leafReachable_consistent {cc : Int} (hcc : 0 < cc) {m : ObjectTreeModel}
    (h : LeafReachable cc m) : Consistent cc m := by
  induction h with
  | init => exact consistent_empty cc
  | added probe fuel d x _ hprobe hd hrun ih =>
    exact (objectAdded_consistent_of_eq hcc hprobe ih hd hrun).1
  | removed fuel x _ hleaf hrun ih => exact objectRemoved_consistent ih hleaf hrun
  | @reparented probe fuel d x m0 m1 _ hprobe hd hleaf hrun ih =>
    unfold objectReparanted at hrun
    cases hv : probe.isValidObject x with
    | false =>
      simp only [hv] at hrun
      exact objectRemoved_consistent ih hleaf hrun
    | true =>
      simp only [hv, if_true] at hrun
      cases hadd : objectAdded cc probe fuel m0 x with
      | none => simp [hadd] at hrun
      | some m2 =>
        simp only [hadd] at hrun
        obtain ⟨hc2, hframe⟩ := objectAdded_consistent_of_eq hcc hprobe ih hd hadd
        exact objectRemoved_consistent hc2
          (childrenOf_eq_nil_of_frame ih hc2 (hd hv) hleaf hframe) hrun

/-! ## C1: the mutual-inverse invariant -/

/-- C1, counterexample. `Added(1)`, `Added(2)` (a child of 1), `Removed(1)` from the empty
model: the handlers return, node 2 keeps the child→parent entry 1, and the children
sequence of 1 is gone, so 2 does not occur in it. The reachable model violates the
mutual-inverse invariant. -/
theorem reachable_not_mutualInverse : ∃ m, Reachable 2 m ∧ ¬ MutualInverse m := by
  have h1 : applyEvent 2 scenarioProbe 3 ObjectTreeModel.empty (Event.added 1) =
      some scenarioA := by rfl
  have h2 : applyEvent 2 scenarioProbe 3 scenarioA (Event.added 2) = some scenarioAB := by rfl
  have h3 : applyEvent 2 scenarioProbe 3 scenarioAB (Event.removed 1) =
      some (eraseRow scenarioAB QModelIndex.null 0 1 0) := by rfl
  refine ⟨_, Reachable.step _ _ _ (Reachable.step _ _ _ (Reachable.step _ _ _ Reachable.init h1)
    h2) h3, ?_⟩
  intro hmi
  have := hmi.1 2 1 (by rfl)
  revert this
  decide

theorem scenarioProbe_parentsLive : scenarioProbe.ParentsLive := by
  refine ⟨by decide, ?_⟩
  intro x hx
  simp only [scenarioProbe, decide_eq_true_eq] at hx ⊢
  rcases hx with rfl | rfl | rfl
  · left; decide
  · right; decide
  · right; decide

theorem reparentedProbe_parentsLive : reparentedProbe.ParentsLive := by
  refine ⟨by decide, ?_⟩
  intro x hx
  simp only [reparentedProbe, decide_eq_true_eq] at hx ⊢
  rcases hx with rfl | rfl | rfl
  · left; decide
  · right; decide
  · left; decide

/-- C1, amended. In every model reachable from the empty one by `objectAdded`,
`objectRemoved` and `objectReparanted` events, when the source graph at each event never
attests null, reports a null or live parent for every live object and a finite parent
chain for the live object of the event, and when objects are removed or reparented only
while their children sequence is empty: a node with a child→parent entry `p` occurs
exactly once in the children of `p`, and every node in the children of `p` has the
child→parent entry `p`. -/
theorem mutualInverse_of_leafReachable {cc : Int} (hcc : 0 < cc) {m : ObjectTreeModel}
    (h : LeafReachable cc m) : MutualInverse m :=
  (leafReachable_consistent hcc h).1

/-- The scenario of the specification, event by event, on the embedding. -/
theorem scenario_steps :
    objectAdded 2 scenarioProbe 3 ObjectTreeModel.empty 1 = some scenarioA ∧
    objectAdded 2 scenarioProbe 3 scenarioA 2 = some scenarioAB ∧
    objectAdded 2 scenarioProbe 3 scenarioAB 3 = some scenarioABC ∧
    objectRemoved 2 3 scenarioABC 2 = some scenarioAC :=
  ⟨rfl, rfl, rfl, rfl⟩

theorem leafReachable_scenarioAC : LeafReachable 2 scenarioAC := by
  have hA : LeafReachable 2 scenarioA :=
    LeafReachable.added scenarioProbe 3 1 1 LeafReachable.init scenarioProbe_parentsLive
      (fun _ => by decide) scenario_steps.1
  have hAB : LeafReachable 2 scenarioAB :=
    LeafReachable.added scenarioProbe 3 2 2 hA scenarioProbe_parentsLive
      (fun _ => by decide) scenario_steps.2.1
  have hABC : LeafReachable 2 scenarioABC :=
    LeafReachable.added scenarioProbe 3 2 3 hAB scenarioProbe_parentsLive
      (fun _ => by decide) scenario_steps.2.2.1
  exact LeafReachable.removed 3 2 hABC (by rfl) scenario_steps.2.2.2

/-- C1, witness: the model after `Added(A)`, `Added(B)`, `Added(C)`, `Removed(B)` of the
scenario is reachable by leaf-only removals, and its maps are mutual inverses. -/
theorem mutualInverse_of_leafReachable_witness :
    (0 : Int) < 2 ∧ LeafReachable 2 scenarioAC ∧ MutualInverse scenarioAC :=
  ⟨by decide, leafReachable_scenarioAC,
    mutualInverse_of_leafReachable (by decide) leafReachable_scenarioAC⟩

/-! ## C2: reparenting a live node -/

/-- C2, the code at the failing input. In the scenario, with `childrenOf(root) = [A]` and
`childrenOf(A) = [C]`, the live node `C` is reparented to the null parent.
`objectReparanted(C)` returns, and afterwards `C` is not the last child of the root: the
root still has the children `[A]`, `A` has none, and `C` has no child→parent entry. The
call of `objectAdded` returned at the duplicate check and `objectRemoved` erased the
only row of `C`. -/
theorem objectReparanted_live_drops_node :
    scenarioAC.childrenOf nullObj = [1] ∧ scenarioAC.childrenOf 1 = [3] ∧
    reparentedProbe.isValidObject 3 = true ∧ reparentedProbe.parent 3 = nullObj ∧
    ∃ m, (∀ fuel, 4 ≤ fuel → objectReparanted 2 reparentedProbe fuel scenarioAC 3 = some m) ∧
      m.childrenOf nullObj = [1] ∧ m.childrenOf 1 = [] ∧ m.m_childParentMap 3 = none :=
  ⟨rfl, rfl, rfl, rfl, eraseRow scenarioAC (createIndex 0 0 1) 1 3 0,
    fun _ hf => objectReparanted_mono (show objectReparanted 2 reparentedProbe 4 scenarioAC 3 =
      some (eraseRow scenarioAC (createIndex 0 0 1) 1 3 0) from rfl) hf, rfl, rfl, rfl⟩

/-! ## C3: what `objectAdded` guarantees -/

/-- C3, counterexample. On the empty model (whose maps are mutual inverses), with the live
node 2 that has no index entry and the finite parent chain 2, 1, null, where the parent 1
is not live: `objectAdded(2)` returns, and node 2 has no position afterwards. -/
theorem objectAdded_dead_parent_unresolved :
    MutualInverse ObjectTreeModel.empty ∧ orphanProbe.isValidObject 2 = true ∧
    ObjectTreeModel.empty.m_childParentMap 2 = none ∧ chainLength orphanProbe 2 2 = true ∧
    ∃ m, (∀ fuel, 3 ≤ fuel → objectAdded 2 orphanProbe fuel ObjectTreeModel.empty 2 = some m) ∧
      ¬ Resolved 2 m 2 ∧ ¬ Resolved 2 m (orphanProbe.parent 2) ∧
      orphanProbe.parent 2 ≠ nullObj := by
  refine ⟨(consistent_empty 2).1, rfl, rfl, rfl,
    appendRow ObjectTreeModel.empty QModelIndex.null 1 2, ?_, ?_, ?_, by decide⟩
  · intro fuel hf
    exact objectAdded_mono 2 orphanProbe 3 fuel _ _ 2 rfl hf
  · exact not_resolved_of_unresolved ⟨3, QModelIndex.null, rfl, rfl⟩
  · exact not_resolved_of_unresolved ⟨3, QModelIndex.null, rfl, rfl⟩

/-- C3, amended. On a model whose maps are mutual inverses and in which every node with a
child→parent entry has a position, under a source graph that never attests null and
reports a null or live parent for every live object, for a live node `x` without index
entry whose parent chain is finite: `objectAdded(x)` returns, and afterwards the recorded
parent of `x` is `parentOf(x)`, `x` occurs in the children of `parentOf(x)`, `x` has a
position, the parent has a position or is null, and the maps are again mutual inverses
(with a position for every node that has a child→parent entry). -/
theorem objectAdded_includes_node {cc : Int} {probe : Probe} (hcc : 0 < cc)
    (hprobe : probe.ParentsLive) (d : Nat) {m : ObjectTreeModel} {x : QObjectPtr}
    (hc : Consistent cc m) (hlive : probe.isValidObject x = true)
    (hd : chainLength probe d x = true) (hnew : ¬ Resolved cc m x) :
    ∃ N m', (∀ fuel, N ≤ fuel → objectAdded cc probe fuel m x = some m') ∧
      m'.m_childParentMap x = some (probe.parent x) ∧
      x ∈ m'.childrenOf (probe.parent x) ∧
      Resolved cc m' x ∧
      (probe.parent x = nullObj ∨ Resolved cc m' (probe.parent x)) ∧
      MutualInverse m' ∧
      (∀ c p, m'.m_childParentMap c = some p → Resolved cc m' c) := by
  obtain ⟨N, m', hrun, hc', hres, -, hentry⟩ := objectAdded_consistent hcc hprobe d m x hc hd hlive
  have hnone : m.m_childParentMap x = none := by
    cases h : m.m_childParentMap x with
    | none => rfl
    | some q => exact absurd (hc.2 x q h) hnew
  have hx := hentry hnone
  have hch := chain_of_resolved hres
  have hpv := parentValue_of_entry hx
  refine ⟨N, m', hrun, hx, ?_, hres, ?_, hc'.1, hc'.2⟩
  · rw [← hpv]; exact hch.mem
  · cases hch with
    | root _ _ _ _ h0 _ => left; rw [← hpv]; exact h0
    | step _ _ _ _ _ hsub => right; rw [← hpv]; exact resolved_of_chain hsub

theorem leafReachable_scenarioA : LeafReachable 2 scenarioA :=
  LeafReachable.added scenarioProbe 3 1 1 LeafReachable.init scenarioProbe_parentsLive
    (fun _ => by decide) scenario_steps.1

/-- C3, witness: `Added(B)` in the scenario, on the model that holds `A` only. -/
theorem objectAdded_includes_node_witness :
    (0 : Int) < 2 ∧ scenarioProbe.ParentsLive ∧ Consistent 2 scenarioA ∧
    scenarioProbe.isValidObject 2 = true ∧ chainLength scenarioProbe 2 2 = true ∧
    ¬ Resolved 2 scenarioA 2 ∧
    ∃ N m', (∀ fuel, N ≤ fuel → objectAdded 2 scenarioProbe fuel scenarioA 2 = some m') ∧
      m'.m_childParentMap 2 = some (scenarioProbe.parent 2) ∧
      2 ∈ m'.childrenOf (scenarioProbe.parent 2) ∧
      Resolved 2 m' 2 ∧
      (scenarioProbe.parent 2 = nullObj ∨ Resolved 2 m' (scenarioProbe.parent 2)) ∧
      MutualInverse m' ∧
      (∀ c p, m'.m_childParentMap c = some p → Resolved 2 m' c) :=
  have hc : Consistent 2 scenarioA := leafReachable_consistent (by decide) leafReachable_scenarioA
  have hnew : ¬ Resolved 2 scenarioA 2 := not_resolved_of_no_entry hc.1 rfl
  ⟨by decide, scenarioProbe_parentsLive, hc, rfl, rfl, hnew,
    objectAdded_includes_node (by decide) scenarioProbe_parentsLive 2 hc rfl rfl hnew⟩

/-! ## C4: `objectAdded` appends and announces one row -/

/-- C4. For every model and every live node `x` for which `indexForObject` answers no
valid position (in particular a node that occurs in neither map), whose reported parent
`p` is null or has a valid position `pidx` (the invalid root position for null), with
`len` the length of the children of `p`: `objectAdded(x)` returns, it emits exactly
`beginInsertRows(pidx, len, len)` followed by `endInsertRows`, the children of `p` become
the old sequence with `x` appended (at row `len`), the child→parent entry of `x` becomes
`p`, and every other entry of both maps is unchanged. -/
theorem objectAdded_appends_one_row {cc : Int} {probe : Probe} {m : ObjectTreeModel}
    {x : QObjectPtr} {n : Nat} {own pidx : QModelIndex}
    (hlive : probe.isValidObject x = true)
    (hown : indexForObject cc m n x = some own) (hnew : own.isValid = false)
    (hpidx : indexForObject cc m n (probe.parent x) = some pidx)
    (hp : probe.parent x = nullObj ∨ pidx.isValid = true) :
    ∃ m', (∀ fuel, n < fuel → objectAdded cc probe fuel m x = some m') ∧
      m'.signals = m.signals ++
        [Signal.beginInsertRows pidx (m.childrenOf (probe.parent x)).length
            (m.childrenOf (probe.parent x)).length,
          Signal.endInsertRows] ∧
      m'.childrenOf (probe.parent x) = m.childrenOf (probe.parent x) ++ [x] ∧
      (m'.childrenOf (probe.parent x))[(m.childrenOf (probe.parent x)).length]? = some x ∧
      m'.m_childParentMap x = some (probe.parent x) ∧
      (∀ q, q ≠ probe.parent x → m'.m_parentChildMap q = m.m_parentChildMap q) ∧
      (∀ z, z ≠ x → m'.m_childParentMap z = m.m_childParentMap z) := by
  refine ⟨appendRow m pidx (probe.parent x) x, ?_, rfl, ?_, ?_, ?_, ?_, ?_⟩
  · intro fuel hf
    obtain ⟨k, rfl⟩ : ∃ k, fuel = k + 1 := ⟨fuel - 1, by omega⟩
    have hown2 := indexForObject_mono cc m n k _ own hown (by omega)
    have hpidx2 := indexForObject_mono cc m n k _ pidx hpidx (by omega)
    rcases hp with h0 | hv
    · rw [objectAdded_root hlive hown2 hnew h0]
      exact insertRow_eq hpidx2
    · rw [objectAdded_parent_indexed hlive hown2 hnew hpidx2 hv]
      exact insertRow_eq hpidx2
  · rw [childrenOf_appendRow, if_pos rfl]
  · rw [childrenOf_appendRow, if_pos rfl]
    simp
  · rw [parentMap_appendRow, if_pos rfl]
  · intro q hq
    simp [appendRow, hashInsert, hq]
  · intro z hz
    rw [parentMap_appendRow, if_neg hz]

/-- C4, witness: the scenario of the specification. `Added(C)` on the model that holds `A`
and its child `B` announces row 1 under the position of `A`; after `Added(A)`, `Added(B)`,
`Added(C)` from the empty model the children of `A` are `[B, C]`, the recorded parent of
`B` is `A`, and the position of `C` is row 1 under `A`, whose position is row 0 of the
root. -/
theorem objectAdded_appends_one_row_witness :
    (objectAdded 2 scenarioProbe 3 ObjectTreeModel.empty 1 = some scenarioA ∧
      objectAdded 2 scenarioProbe 3 scenarioA 2 = some scenarioAB ∧
      objectAdded 2 scenarioProbe 3 scenarioAB 3 = some scenarioABC) ∧
    (scenarioABC.childrenOf 1 = [2, 3] ∧ scenarioABC.m_childParentMap 2 = some 1 ∧
      indexForObject 2 scenarioABC 3 3 = some (createIndex 1 0 3) ∧
      scenarioABC.parentValue 3 = 1 ∧
      indexForObject 2 scenarioABC 3 1 = some (createIndex 0 0 1)) ∧
    scenarioProbe.isValidObject 3 = true ∧
    indexForObject 2 scenarioAB 2 3 = some QModelIndex.null ∧
    QModelIndex.null.isValid = false ∧
    indexForObject 2 scenarioAB 2 (scenarioProbe.parent 3) = some (createIndex 0 0 1) ∧
    (createIndex 0 0 1).isValid = true ∧
    ∃ m', (∀ fuel, 2 < fuel → objectAdded 2 scenarioProbe fuel scenarioAB 3 = some m') ∧
      m'.signals = scenarioAB.signals ++
        [Signal.beginInsertRows (createIndex 0 0 1)
            (scenarioAB.childrenOf (scenarioProbe.parent 3)).length
            (scenarioAB.childrenOf (scenarioProbe.parent 3)).length,
          Signal.endInsertRows] ∧
      m'.childrenOf (scenarioProbe.parent 3) = scenarioAB.childrenOf (scenarioProbe.parent 3) ++ [3] ∧
      (m'.childrenOf (scenarioProbe.parent 3))[
        (scenarioAB.childrenOf (scenarioProbe.parent 3)).length]? = some 3 ∧
      m'.m_childParentMap 3 = some (scenarioProbe.parent 3) ∧
      (∀ q, q ≠ scenarioProbe.parent 3 →
        m'.m_parentChildMap q = scenarioAB.m_parentChildMap q) ∧
      (∀ z, z ≠ 3 → m'.m_childParentMap z = scenarioAB.m_childParentMap z) :=
  ⟨⟨rfl, rfl, rfl⟩, ⟨rfl, rfl, rfl, rfl, rfl⟩, rfl, rfl, rfl, rfl, rfl,
    objectAdded_appends_one_row rfl
      (show indexForObject 2 scenarioAB 2 3 = some QModelIndex.null from rfl) rfl
      (show indexForObject 2 scenarioAB 2 (scenarioProbe.parent 3) = some (createIndex 0 0 1)
        from rfl) (Or.inr rfl)⟩

/-! ## C5: `objectRemoved` erases and announces one row -/

theorem Chain.parentValue_ne {cc : Int} {m : ObjectTreeModel} {P : QObjectPtr → Prop}
    {x : QObjectPtr} (h : Chain cc m P x) : m.parentValue x ≠ x := by
  induction h with
  | root z hz _ _ h0 _ => rw [h0]; exact fun h => hz h.symm
  | step z _ _ _ _ _ ih =>
    intro h
    rw [h] at ih
    exact ih h

/-- C5. For every model in which the node `x` (a non-null handle) has the child→parent
entry `p`, `p` is null or has a valid position `pidx` (the invalid root position for
null), and `x` first occurs in the children of `p` at row `i`: `objectRemoved(x)` returns,
it emits exactly `beginRemoveRows(pidx, i, i)` followed by `endRemoveRows`, the children of
`p` become the old sequence with the element at row `i` deleted, `x` has no child→parent
entry and no children sequence, and every other entry of both maps is unchanged. -/
theorem objectRemoved_erases_one_row {cc : Int} {m : ObjectTreeModel} {x p : QObjectPtr}
    {n i : Nat} {pidx : QModelIndex} (hx : x ≠ nullObj)
    (hentry : m.m_childParentMap x = some p)
    (hpidx : indexForObject cc m n p = some pidx)
    (hp : p = nullObj ∨ pidx.isValid = true)
    (hmem : x ∈ m.childrenOf p) (hrow : (m.childrenOf p).indexOf x = i) :
    ∃ m', (∀ fuel, n ≤ fuel → objectRemoved cc fuel m x = some m') ∧
      m'.signals = m.signals ++
        [Signal.beginRemoveRows pidx (i : Int) (i : Int), Signal.endRemoveRows] ∧
      m'.childrenOf p = (m.childrenOf p).eraseIdx i ∧
      m'.m_childParentMap x = none ∧
      m'.m_parentChildMap x = none ∧
      (∀ q, q ≠ p → q ≠ x → m'.m_parentChildMap q = m.m_parentChildMap q) ∧
      (∀ z, z ≠ x → m'.m_childParentMap z = m.m_childParentMap z) := by
  have hvi : vectorIndexOf (m.childrenOf p) x = (i : Int) := by
    simp [vectorIndexOf, hmem, hrow]
  have hpx : p ≠ x := by
    rcases hp with h0 | hv
    · rw [h0]; exact fun h => hx h.symm
    · have hch := chain_of_indexForObject cc m n p pidx hpidx hv
      intro h
      have hne := hch.parentValue_ne
      rw [h, parentValue_of_entry hentry] at hne
      exact hne h
  refine ⟨eraseRow m pidx p x (i : Int), ?_, rfl, ?_, ?_, ?_, ?_, ?_⟩
  · intro fuel hf
    rw [objectRemoved_row hentry (indexForObject_mono cc m n fuel _ pidx hpidx hf) hp hmem, hvi]
  · rw [childrenOf_eraseRow, if_neg hpx, if_pos rfl]
    simp
  · rw [parentMap_eraseRow, if_pos rfl]
  · simp [eraseRow, hashRemove]
  · intro q hq hqx
    simp [eraseRow, hashRemove, hashInsert, hq, hqx]
  · intro z hz
    rw [parentMap_eraseRow, if_neg hz]

/-- C5, witness: the scenario of the specification. With the children `[B, C]` of `A`,
`Removed(B)` announces row 0 under the position of `A`, leaves the children `[C]`, and `B`
has no child→parent entry. -/
theorem objectRemoved_erases_one_row_witness :
    (scenarioABC.childrenOf 1 = [2, 3] ∧ objectRemoved 2 3 scenarioABC 2 = some scenarioAC ∧
      scenarioAC.childrenOf 1 = [3] ∧ scenarioAC.m_childParentMap 2 = none) ∧
    (2 : QObjectPtr) ≠ nullObj ∧ scenarioABC.m_childParentMap 2 = some 1 ∧
    indexForObject 2 scenarioABC 2 1 = some (createIndex 0 0 1) ∧
    (createIndex 0 0 1).isValid = true ∧ 2 ∈ scenarioABC.childrenOf 1 ∧
    (scenarioABC.childrenOf 1).indexOf 2 = 0 ∧
    ∃ m', (∀ fuel, 2 ≤ fuel → objectRemoved 2 fuel scenarioABC 2 = some m') ∧
      m'.signals = scenarioABC.signals ++
        [Signal.beginRemoveRows (createIndex 0 0 1) ((0 : Nat) : Int) ((0 : Nat) : Int),
          Signal.endRemoveRows] ∧
      m'.childrenOf 1 = (scenarioABC.childrenOf 1).eraseIdx 0 ∧
      m'.m_childParentMap 2 = none ∧
      m'.m_parentChildMap 2 = none ∧
      (∀ q, q ≠ 1 → q ≠ 2 → m'.m_parentChildMap q = scenarioABC.m_parentChildMap q) ∧
      (∀ z, z ≠ 2 → m'.m_childParentMap z = scenarioABC.m_childParentMap z) :=
  ⟨⟨rfl, rfl, rfl, rfl⟩, by decide, rfl, rfl, rfl, by decide, rfl,
    objectRemoved_erases_one_row (by decide)
      (show scenarioABC.m_childParentMap 2 = some 1 from rfl)
      (show indexForObject 2 scenarioABC 2 1 = some (createIndex 0 0 1) from rfl)
      (Or.inr rfl) (by decide) rfl⟩

/-! ## C6: a second `objectAdded` changes nothing -/

theorem Chain.resolved {cc : Int} {m : ObjectTreeModel} {P : QObjectPtr → Prop}
    {x : QObjectPtr} (h : Chain cc m P x) : Chain cc m (fun z => P z ∧ Resolved cc m z) x := by
  induction h with
  | root z hz hp hcc h0 hmem =>
    exact Chain.root z hz ⟨hp, resolved_of_chain (Chain.root (P := P) z hz hp hcc h0 hmem)⟩
      hcc h0 hmem
  | step z hz hp hcc hmem hsub ih =>
    exact Chain.step z hz ⟨hp, resolved_of_chain (Chain.step z hz hp hcc hmem hsub)⟩ hcc hmem ih

theorem terminates_of_consistent {cc : Int} {m : ObjectTreeModel} (hc : Consistent cc m)
    (z : QObjectPtr) : ∃ n i, indexForObject cc m n z = some i := by
  cases h : m.m_childParentMap z with
  | none => exact ⟨2, _, indexForObject_no_entry hc.1 h 0⟩
  | some q =>
    obtain ⟨n, i, hi, -⟩ := hc.2 z q h
    exact ⟨n, i, hi⟩

/-- On any model on which `indexForObject` answers for every node, under a source graph
with live parents, `objectAdded` of a live node with a finite parent chain returns, and
the node is resolved afterwards along a chain of nodes that either were resolved before or
lie on the parent chain of the node in the source graph. -/
theorem objectAdded_resolves {cc : Int} {probe : Probe} (hcc : 0 < cc)
    (hprobe : probe.ParentsLive) :
    ∀ (d : Nat) (m : ObjectTreeModel) (x : QObjectPtr),
      (∀ z, ∃ n i, indexForObject cc m n z = some i) →
      chainLength probe d x = true → probe.isValidObject x = true →
      ∃ N m', (∀ fuel, N ≤ fuel → objectAdded cc probe fuel m x = some m') ∧
        Chain cc m' (fun z => Resolved cc m z ∨
          (z ≠ nullObj ∧ ∃ e, e ≤ d ∧ chainLength probe e z = true)) x := by
  intro d
  induction d with
  | zero =>
    intro m x _ hd hv
    simp only [chainLength, decide_eq_true_eq] at hd
    rw [hd, hprobe.1] at hv
    exact absurd hv Bool.false_ne_true
  | succ d ih =>
    intro m x hterm hd hv
    have hd0 := hd
    simp only [chainLength, Bool.and_eq_true, decide_eq_true_eq] at hd
    obtain ⟨hx, hdp⟩ := hd
    obtain ⟨n, own, hown⟩ := hterm x
    cases hvalid : own.isValid with
    | true =>
      refine ⟨n + 1, m, ?_, ?_⟩
      · intro fuel hf
        exact objectAdded_mono cc probe (n + 1) fuel m m x (objectAdded_indexed hown hvalid) hf
      · exact (chain_of_indexForObject cc m n x own hown hvalid).resolved.imp
          (fun z hz => Or.inl hz.2)
    | false =>
      have hnr : ¬ Resolved cc m x := not_resolved_of_unresolved ⟨n, own, hown, hvalid⟩
      have key : ∃ N mX idx, (∀ fuel, N ≤ fuel →
            objectAdded cc probe fuel m x = some (appendRow mX idx (probe.parent x) x)) ∧
          (probe.parent x = nullObj ∨
            Chain cc mX (fun z => (Resolved cc m z ∨
              (z ≠ nullObj ∧ ∃ e, e ≤ d + 1 ∧ chainLength probe e z = true)) ∧ z ≠ x)
              (probe.parent x)) := by
        by_cases hp : probe.parent x = nullObj
        · refine ⟨n + 2, m, QModelIndex.null, ?_, Or.inl hp⟩
          intro fuel hf
          obtain ⟨k, rfl⟩ : ∃ k, fuel = k + 1 + 1 := ⟨fuel - 2, by omega⟩
          rw [objectAdded_root hv (indexForObject_mono cc m n (k + 1) _ own hown (by omega))
            hvalid hp]
          apply insertRow_eq
          rw [hp]
          exact indexForObject_null cc m k
        · have hpv : probe.isValidObject (probe.parent x) = true := by
            rcases hprobe.2 x hv with h | h
            · exact absurd h hp
            · exact h
          obtain ⟨np, pidx, hpidx⟩ := hterm (probe.parent x)
          cases hpvalid : pidx.isValid with
          | true =>
            refine ⟨max n np + 1, m, pidx, ?_, Or.inr ?_⟩
            · intro fuel hf
              obtain ⟨k, rfl⟩ : ∃ k, fuel = k + 1 := ⟨fuel - 1, by omega⟩
              have h1 := indexForObject_mono cc m n k _ own hown (by omega)
              have h2 := indexForObject_mono cc m np k _ pidx hpidx (by omega)
              rw [objectAdded_parent_indexed hv h1 hvalid h2 hpvalid]
              exact insertRow_eq h2
            · refine (chain_of_indexForObject cc m np _ pidx hpidx hpvalid).resolved.imp ?_
              intro z hz
              refine ⟨Or.inl hz.2, ?_⟩
              rintro rfl
              exact hnr hz.2
          | false =>
            obtain ⟨N1, m1, hrun, hch1⟩ := ih m (probe.parent x) hterm hdp hpv
            obtain ⟨n1, idx1, hidx1, -⟩ := resolved_of_chain hch1
            refine ⟨max (max n np) (max N1 n1) + 1, m1, idx1, ?_, Or.inr ?_⟩
            · intro fuel hf
              obtain ⟨k, rfl⟩ : ∃ k, fuel = k + 1 := ⟨fuel - 1, by omega⟩
              have h1 := indexForObject_mono cc m n k _ own hown (by omega)
              have h2 := indexForObject_mono cc m np k _ pidx hpidx (by omega)
              rw [objectAdded_parent_first hv h1 hvalid hp h2 hpvalid (hrun k (by omega))]
              exact insertRow_eq (indexForObject_mono cc m1 n1 k _ idx1 hidx1 (by omega))
            · refine hch1.imp ?_
              intro z hz
              rcases hz with hz | ⟨hz0, e, he, hce⟩
              · refine ⟨Or.inl hz, ?_⟩
                rintro rfl
                exact hnr hz
              · refine ⟨Or.inr ⟨hz0, e, by omega, hce⟩, ?_⟩
                rintro rfl
                have := chainLength_unique probe _ _ z hd0 hce
                omega
      obtain ⟨N, mX, idx, hrun, hpX⟩ := key
      exact ⟨N, _, hrun, chain_appendRow_self idx hcc hx
        (Or.inr ⟨hx, d + 1, le_refl _, hd0⟩) hpX⟩

/-- C6, counterexample. On the empty model, with the live node 2 whose reported parent 1
is not live, the first `objectAdded(2)` appends 2 under 1 and the second, with the same
source graph, appends it again and emits a second pair of signals. -/
theorem objectAdded_twice_differs :
    ∃ m1 m2,
      (∀ fuel, 3 ≤ fuel → objectAdded 2 orphanProbe fuel ObjectTreeModel.empty 2 = some m1) ∧
      (∀ fuel, 4 ≤ fuel → objectAdded 2 orphanProbe fuel m1 2 = some m2) ∧
      m1.childrenOf 1 = [2] ∧ m2.childrenOf 1 = [2, 2] ∧
      m1.signals.length = 2 ∧ m2.signals.length = 4 := by
  refine ⟨appendRow ObjectTreeModel.empty QModelIndex.null 1 2,
    appendRow (appendRow ObjectTreeModel.empty QModelIndex.null 1 2) QModelIndex.null 1 2,
    ?_, ?_, rfl, rfl, rfl, rfl⟩
  · intro fuel hf
    exact objectAdded_mono 2 orphanProbe 3 fuel _ _ 2 rfl hf
  · intro fuel hf
    exact objectAdded_mono 2 orphanProbe 4 fuel _ _ 2 rfl hf

/-- C6, amended. On every model on which `indexForObject` answers for every node, for every
node `x`, under a source graph (the same for both calls) that never attests null, reports
a null or live parent for every live object and a finite parent chain for `x` if `x` is
live: `objectAdded(x)` returns a model on which a second `objectAdded(x)` returns the very
same model, maps and emitted signals alike. -/
theorem objectAdded_twice {cc : Int} {probe : Probe} (hcc : 0 < cc)
    (hprobe : probe.ParentsLive) (d : Nat) {m : ObjectTreeModel} {x : QObjectPtr}
    (hterm : ∀ z, ∃ n i, indexForObject cc m n z = some i)
    (hd : probe.isValidObject x = true → chainLength probe d x = true) :
    ∃ N m1, ∀ fuel, N ≤ fuel →
      objectAdded cc probe fuel m x = some m1 ∧ objectAdded cc probe fuel m1 x = some m1 := by
  cases hv : probe.isValidObject x with
  | false =>
    refine ⟨1, m, ?_⟩
    intro fuel hf
    obtain ⟨k, rfl⟩ : ∃ k, fuel = k + 1 := ⟨fuel - 1, by omega⟩
    exact ⟨objectAdded_dead k m hv, objectAdded_dead k m hv⟩
  | true =>
    obtain ⟨N, m1, hrun, hch⟩ := objectAdded_resolves hcc hprobe d m x hterm (hd hv) hv
    obtain ⟨n, i, hi, hiv⟩ := resolved_of_chain hch
    refine ⟨max N (n + 1), m1, ?_⟩
    intro fuel hf
    refine ⟨hrun fuel (by omega), ?_⟩
    exact objectAdded_mono cc probe (n + 1) fuel m1 m1 x (objectAdded_indexed hi hiv) (by omega)

theorem leafReachable_scenarioAB : LeafReachable 2 scenarioAB :=
  LeafReachable.added scenarioProbe 3 2 2 leafReachable_scenarioA scenarioProbe_parentsLive
    (fun _ => by decide) scenario_steps.2.1

/-- C6, witness: `Added(C)` twice in the scenario, on the model that holds `A` and `B`. -/
theorem objectAdded_twice_witness :
    (0 : Int) < 2 ∧ scenarioProbe.ParentsLive ∧
    (∀ z, ∃ n i, indexForObject 2 scenarioAB n z = some i) ∧
    (scenarioProbe.isValidObject 3 = true → chainLength scenarioProbe 2 3 = true) ∧
    ∃ N m1, ∀ fuel, N ≤ fuel →
      objectAdded 2 scenarioProbe fuel scenarioAB 3 = some m1 ∧
      objectAdded 2 scenarioProbe fuel m1 3 = some m1 :=
  have hterm : ∀ z, ∃ n i, indexForObject 2 scenarioAB n z = some i :=
    terminates_of_consistent (leafReachable_consistent (by decide) leafReachable_scenarioAB)
  ⟨by decide, scenarioProbe_parentsLive, hterm, fun _ => rfl,
    objectAdded_twice (by decide) scenarioProbe_parentsLive 2 hterm (fun _ => rfl)⟩

/-! ## C7: the order of `Added(child)` and `Added(parent)` -/

theorem mutualInverse_appendRow {m : ObjectTreeModel} (idx : QModelIndex) (p : QObjectPtr)
    {x : QObjectPtr} (hmi : MutualInverse m) (hentry : m.m_childParentMap x = none) :
    MutualInverse (appendRow m idx p x) := by
  refine ⟨?_, ?_⟩
  · intro c q hcq
    rw [parentMap_appendRow] at hcq
    rw [childrenOf_appendRow]
    by_cases hcx : c = x
    · subst hcx
      rw [if_pos rfl] at hcq
      have hq : p = q := Option.some.inj hcq
      subst hq
      rw [if_pos rfl, List.count_append,
        List.count_eq_zero_of_not_mem (not_mem_of_no_entry hmi hentry _)]
      simp
    · rw [if_neg hcx] at hcq
      have h1 := hmi.1 c q hcq
      by_cases hq : q = p
      · subst hq
        rw [if_pos rfl, List.count_append, h1]
        simp [List.count_singleton, hcx]
      · rw [if_neg hq]; exact h1
  · intro q c hmem
    rw [childrenOf_appendRow] at hmem
    rw [parentMap_appendRow]
    have hcases : c ∈ m.childrenOf q ∨ (c = x ∧ q = p) := by
      by_cases hq : q = p
      · rw [if_pos hq, List.mem_append, List.mem_singleton] at hmem
        rcases hmem with h1 | h1
        · left; rw [hq]; exact h1
        · right; exact ⟨h1, hq⟩
      · rw [if_neg hq] at hmem; exact Or.inl hmem
    rcases hcases with h1 | ⟨h1, h2⟩
    · have hcx : c ≠ x := by
        rintro rfl
        exact not_mem_of_no_entry hmi hentry _ h1
      rw [if_neg hcx]; exact hmi.2 _ _ h1
    · rw [if_pos h1, h2]

/-- C7. On every model whose maps are mutual inverses, for two live nodes `child` and
`parent` (`parent` not the null handle) with `parentOf(child) = parent`, neither of which has an entry
in the indexes, where `parentOf(parent)` is null or has a valid position: `Added(child)`
followed by `Added(parent)` and `Added(parent)` followed by `Added(child)` both return, and
return the same model (the same two maps, children sequences in the same order). -/
theorem objectAdded_order_irrelevant {cc : Int} {probe : Probe} {m : ObjectTreeModel}
    {child parent : QObjectPtr} {n : Nat} {gidx : QModelIndex}
    (hcc : 0 < cc) (hmi : MutualInverse m)
    (hparent : parent ≠ nullObj)
    (hclive : probe.isValidObject child = true) (hplive : probe.isValidObject parent = true)
    (hcp : probe.parent child = parent)
    (hgidx : indexForObject cc m n (probe.parent parent) = some gidx)
    (hg : probe.parent parent = nullObj ∨ gidx.isValid = true)
    (hce : m.m_childParentMap child = none) (hpe : m.m_childParentMap parent = none) :
    ∃ N m', ∀ fuel, N ≤ fuel →
      (objectAdded cc probe fuel m child).bind
          (fun m1 => objectAdded cc probe fuel m1 parent) = some m' ∧
      (objectAdded cc probe fuel m parent).bind
          (fun m1 => objectAdded cc probe fuel m1 child) = some m' := by
  subst hcp
  have hnrc : ¬ Resolved cc m child := not_resolved_of_no_entry hmi hce
  have hnrp : ¬ Resolved cc m (probe.parent child) := not_resolved_of_no_entry hmi hpe
  have hne : child ≠ probe.parent child := by
    intro h
    have h2 : probe.parent (probe.parent child) = probe.parent child := congrArg probe.parent h.symm
    rcases hg with h0 | hv
    · rw [h2] at h0; exact hparent h0
    · rw [h2] at hgidx
      exact hnrp ⟨n, gidx, hgidx, hv⟩
  -- the model after `Added(parent)`
  have hA : ∀ k, n ≤ k → objectAdded cc probe (k + 2 + 1) m (probe.parent child) =
      some (appendRow m gidx (probe.parent (probe.parent child)) (probe.parent child)) := by
    intro k hk
    have hown := @indexForObject_no_entry cc m hmi _ hpe k
    have hg2 := indexForObject_mono cc m n (k + 2) _ gidx hgidx (by omega)
    rcases hg with h0 | hv
    · rw [objectAdded_root hplive hown isValid_null h0]
      exact insertRow_eq hg2
    · rw [objectAdded_parent_indexed hplive hown isValid_null hg2 hv]
      exact insertRow_eq hg2
  have hmi1 := mutualInverse_appendRow gidx (probe.parent (probe.parent child)) hmi hpe
  have hce1 : (appendRow m gidx (probe.parent (probe.parent child))
      (probe.parent child)).m_childParentMap child = none := by
    rw [parentMap_appendRow, if_neg hne]; exact hce
  have hchain1 : Chain cc (appendRow m gidx (probe.parent (probe.parent child))
      (probe.parent child)) (fun z => True ∧ z ≠ child) (probe.parent child) := by
    refine chain_appendRow_self gidx hcc hparent ⟨trivial, fun h => hne h.symm⟩ ?_
    rcases hg with h0 | hv
    · exact Or.inl h0
    · right
      exact (((chain_of_indexForObject cc m n _ gidx hgidx hv).avoid hnrc).avoid hnrp)
  obtain ⟨n1, hpidx⟩ := indexForObject_of_chain hchain1
  have hpvalid := rowIndex_isValid _ hchain1.mem
  -- the model after `Added(child)` on top of it
  have hB : ∀ k, n1 ≤ k → objectAdded cc probe (k + 2 + 1)
      (appendRow m gidx (probe.parent (probe.parent child)) (probe.parent child)) child =
      some (appendRow (appendRow m gidx (probe.parent (probe.parent child)) (probe.parent child))
        (rowIndex (appendRow m gidx (probe.parent (probe.parent child)) (probe.parent child))
          (probe.parent child)) (probe.parent child) child) := by
    intro k hk
    have hown := @indexForObject_no_entry cc _ hmi1 _ hce1 k
    have hp2 := indexForObject_mono cc _ n1 (k + 2) _ _ hpidx (by omega)
    rw [objectAdded_parent_indexed hclive hown isValid_null hp2 hpvalid]
    exact insertRow_eq hp2
  -- `Added(child)` first inserts the parent, then the child
  have hC : ∀ k, max n n1 ≤ k → objectAdded cc probe (k + 2 + 1 + 1) m child =
      some (appendRow (appendRow m gidx (probe.parent (probe.parent child)) (probe.parent child))
        (rowIndex (appendRow m gidx (probe.parent (probe.parent child)) (probe.parent child))
          (probe.parent child)) (probe.parent child) child) := by
    intro k hk
    have hown := @indexForObject_no_entry cc m hmi _ hce (k + 1)
    have hpown := @indexForObject_no_entry cc m hmi _ hpe (k + 1)
    rw [objectAdded_parent_first hclive hown isValid_null hparent hpown isValid_null
      (hA k (by omega))]
    exact insertRow_eq (indexForObject_mono cc _ n1 (k + 2 + 1) _ _ hpidx (by omega))
  -- `Added(parent)` on the final model is a duplicate
  obtain ⟨n2, i2, hi2, hiv2⟩ := resolved_of_chain (Chain.appendRow
    (rowIndex (appendRow m gidx (probe.parent (probe.parent child)) (probe.parent child))
      (probe.parent child)) (probe.parent child) hchain1)
  refine ⟨max (max n n1) n2 + 4,
    appendRow (appendRow m gidx (probe.parent (probe.parent child)) (probe.parent child))
      (rowIndex (appendRow m gidx (probe.parent (probe.parent child)) (probe.parent child))
        (probe.parent child)) (probe.parent child) child, ?_⟩
  intro fuel hf
  obtain ⟨k, rfl⟩ : ∃ k, fuel = k + 2 + 1 + 1 := ⟨fuel - 4, by omega⟩
  constructor
  · rw [hC k (by omega)]
    exact objectAdded_mono cc probe (n2 + 1) _ _ _ _ (objectAdded_indexed hi2 hiv2) (by omega)
  · rw [hA (k + 1) (by omega)]
    exact hB (k + 1) (by omega)

/-- C7, witness: `Added(B)` and `Added(A)` in either order on the empty model. -/
theorem objectAdded_order_irrelevant_witness :
    (0 : Int) < 2 ∧ MutualInverse ObjectTreeModel.empty ∧
    (1 : QObjectPtr) ≠ nullObj ∧
    scenarioProbe.isValidObject 2 = true ∧ scenarioProbe.isValidObject 1 = true ∧
    scenarioProbe.parent 2 = 1 ∧
    indexForObject 2 ObjectTreeModel.empty 1 (scenarioProbe.parent 1) = some QModelIndex.null ∧
    scenarioProbe.parent 1 = nullObj ∧
    ObjectTreeModel.empty.m_childParentMap 2 = none ∧
    ObjectTreeModel.empty.m_childParentMap 1 = none ∧
    ∃ N m', ∀ fuel, N ≤ fuel →
      (objectAdded 2 scenarioProbe fuel ObjectTreeModel.empty 2).bind
          (fun m1 => objectAdded 2 scenarioProbe fuel m1 1) = some m' ∧
      (objectAdded 2 scenarioProbe fuel ObjectTreeModel.empty 1).bind
          (fun m1 => objectAdded 2 scenarioProbe fuel m1 2) = some m' :=
  ⟨by decide, (consistent_empty 2).1, by decide, rfl, rfl, rfl, rfl, rfl, rfl, rfl,
    objectAdded_order_irrelevant (by decide) (consistent_empty 2).1 (by decide)
      rfl rfl rfl
      (show indexForObject 2 ObjectTreeModel.empty 1 (scenarioProbe.parent 1) =
        some QModelIndex.null from rfl)
      (Or.inl rfl) rfl rfl⟩

/-! ## C8: removing a stale node -/

theorem childrenOf_touchSiblings (m : ObjectTreeModel) (p q : QObjectPtr) :
    (touchSiblings m p).childrenOf q = m.childrenOf q := by
  unfold touchSiblings ObjectTreeModel.childrenOf hashInsert
  by_cases h : q = p
  · subst h; simp
  · simp [h]

/-- On a cycle of two nodes `indexForObject` never returns. -/
theorem indexForObject_cycle {cc : Int} {m : ObjectTreeModel} {a b : QObjectPtr}
    (ha : a ≠ nullObj) (hb : b ≠ nullObj) (hab : m.parentValue a = b)
    (hba : m.parentValue b = a) :
    ∀ fuel, indexForObject cc m fuel a = none ∧ indexForObject cc m fuel b = none := by
  intro fuel
  induction fuel with
  | zero => exact ⟨rfl, rfl⟩
  | succ fuel ih =>
    constructor
    · rw [indexForObject_succ, if_neg ha, hab, ih.2]
    · rw [indexForObject_succ, if_neg hb, hba, ih.1]

theorem mutualInverse_cycleModel : MutualInverse cycleModel := by
  have hcp : ∀ c, cycleModel.m_childParentMap c =
      if c = 2 then some 1 else if c = 1 then some 2 else none := by
    intro c
    by_cases h2 : c = 2
    · subst h2; rfl
    · by_cases h1 : c = 1
      · subst h1; rfl
      · simp [cycleModel, staleModel, appendRow, hashInsert, ObjectTreeModel.empty, h1, h2]
  have hch : ∀ p, cycleModel.childrenOf p =
      if p = 1 then [2] else if p = 2 then [1] else [] := by
    intro p
    by_cases h1 : p = 1
    · subst h1; rfl
    · by_cases h2 : p = 2
      · subst h2; rfl
      · simp [cycleModel, staleModel, appendRow, hashInsert, ObjectTreeModel.empty,
          ObjectTreeModel.childrenOf, h1, h2]
  refine ⟨?_, ?_⟩
  · intro c p h
    rw [hcp] at h
    by_cases h2 : c = 2
    · rw [if_pos h2] at h
      rw [← Option.some.inj h, h2]; rfl
    · rw [if_neg h2] at h
      by_cases h1 : c = 1
      · rw [if_pos h1] at h
        rw [← Option.some.inj h, h1]; rfl
      · rw [if_neg h1] at h
        exact absurd h (Option.noConfusion)
  · intro p c h
    rw [hch] at h
    by_cases h1 : p = 1
    · rw [if_pos h1, List.mem_singleton] at h
      rw [h, h1]; rfl
    · rw [if_neg h1] at h
      by_cases h2 : p = 2
      · rw [if_pos h2, List.mem_singleton] at h
        rw [h, h2]; rfl
      · rw [if_neg h2] at h
        exact absurd h (List.not_mem_nil _)

/-- C8, counterexample. The model `cycleModel` is reachable (`Added(1)` while its parent 2
is not live, then `Added(2)` while its parent 1 is not live) and its maps are mutual
inverses. Node 1 has the child→parent entry 2, a non-null parent for which `indexForObject`
never answers a position. `objectRemoved(1)` is not a silent no-op: it does not return with
any fuel, because `indexForObject` follows the cycle 2, 1, 2 forever. -/
theorem objectRemoved_diverges_on_cycle :
    Reachable 2 cycleModel ∧ MutualInverse cycleModel ∧
    cycleModel.m_childParentMap 1 = some 2 ∧ (2 : QObjectPtr) ≠ nullObj ∧
    (∀ fuel, indexForObject 2 cycleModel fuel 2 = none) ∧
    ∀ fuel, objectRemoved 2 fuel cycleModel 1 = none := by
  have hcycle : ∀ fuel, indexForObject 2 cycleModel fuel 2 = none := fun fuel =>
    (@indexForObject_cycle 2 cycleModel 2 1 (by decide) (by decide) rfl rfl fuel).1
  refine ⟨?_, mutualInverse_cycleModel, rfl, by decide, hcycle, ?_⟩
  · exact Reachable.step deadGrandparentProbe 4 (Event.added 2)
      (Reachable.step staleProbe 3 (Event.added 1) Reachable.init
        (show applyEvent 2 staleProbe 3 ObjectTreeModel.empty (Event.added 1) =
          some staleModel from rfl))
      (show applyEvent 2 deadGrandparentProbe 4 staleModel (Event.added 2) =
        some cycleModel from rfl)
  · intro fuel
    have hentry : cycleModel.m_childParentMap 1 = some 2 := rfl
    simp [objectRemoved, hentry, parentValue_of_entry hentry, hcycle fuel]

/-- C8, amended. For every model and every node `x`, where `indexForObject` answers for the
recorded parent of `x` (with some fuel `n`): `objectRemoved(x)` returns, emits nothing and leaves
the children sequence and the child→parent entry of every node unchanged when (1) `x` has no
child→parent entry, or (2) its recorded parent is non-null and has no valid position, or
(3) `x` does not occur in the children of its recorded parent; (4) in every other case it
emits exactly one pair `beginRemoveRows`, `endRemoveRows`; (5) for a node with an entry the
handler returns exactly when `indexForObject` answers for the recorded parent. -/
theorem objectRemoved_stale_is_silent {cc : Int} (m : ObjectTreeModel) (x : QObjectPtr) :
    (m.m_childParentMap x = none → ∀ fuel, objectRemoved cc fuel m x = some m) ∧
    (∀ p n pidx, m.m_childParentMap x = some p → p ≠ nullObj →
      indexForObject cc m n p = some pidx → pidx.isValid = false →
      ∀ fuel, n ≤ fuel → objectRemoved cc fuel m x = some m) ∧
    (∀ p n pidx, m.m_childParentMap x = some p →
      indexForObject cc m n p = some pidx → x ∉ m.childrenOf p →
      ∀ fuel, n ≤ fuel → ∃ m', objectRemoved cc fuel m x = some m' ∧
        m'.signals = m.signals ∧ m'.m_childParentMap = m.m_childParentMap ∧
        ∀ q, m'.childrenOf q = m.childrenOf q) ∧
    (∀ p n pidx, m.m_childParentMap x = some p →
      indexForObject cc m n p = some pidx → (p = nullObj ∨ pidx.isValid = true) →
      x ∈ m.childrenOf p →
      ∀ fuel, n ≤ fuel → ∃ m', objectRemoved cc fuel m x = some m' ∧
        m'.signals = m.signals ++
          [Signal.beginRemoveRows pidx (vectorIndexOf (m.childrenOf p) x)
              (vectorIndexOf (m.childrenOf p) x),
            Signal.endRemoveRows]) ∧
    (∀ p, m.m_childParentMap x = some p → ∀ fuel,
      (objectRemoved cc fuel m x).isSome = (indexForObject cc m fuel p).isSome) := by
  refine ⟨?_, ?_, ?_, ?_, ?_⟩
  · intro h fuel
    exact objectRemoved_absent fuel h
  · intro p n pidx h hp hidx hinv fuel hf
    exact objectRemoved_unresolved h hp (indexForObject_mono cc m n fuel _ pidx hidx hf) hinv
  · intro p n pidx h hidx hmem fuel hf
    have hidx2 := indexForObject_mono cc m n fuel _ pidx hidx hf
    by_cases hguard : p ≠ nullObj ∧ pidx.isValid = false
    · exact ⟨m, objectRemoved_unresolved h hguard.1 hidx2 hguard.2, rfl, rfl, fun _ => rfl⟩
    · have hp : p = nullObj ∨ pidx.isValid = true := by
        by_cases h0 : p = nullObj
        · exact Or.inl h0
        · right
          by_contra hc
          exact hguard ⟨h0, by simpa using hc⟩
      exact ⟨touchSiblings m p, objectRemoved_missing h hidx2 hp hmem, rfl, rfl,
        childrenOf_touchSiblings m p⟩
  · intro p n pidx h hidx hp hmem fuel hf
    exact ⟨_, objectRemoved_row h (indexForObject_mono cc m n fuel _ pidx hidx hf) hp hmem, rfl⟩
  · intro p h fuel
    cases hidx : indexForObject cc m fuel p with
    | none => simp [objectRemoved, h, parentValue_of_entry h, hidx]
    | some pidx =>
      by_cases hmem : x ∈ m.childrenOf p
      · by_cases hguard : p ≠ nullObj ∧ pidx.isValid = false
        · rw [objectRemoved_unresolved h hguard.1 hidx hguard.2]; rfl
        · have hp : p = nullObj ∨ pidx.isValid = true := by
            by_cases h0 : p = nullObj
            · exact Or.inl h0
            · right
              by_contra hc
              exact hguard ⟨h0, by simpa using hc⟩
          rw [objectRemoved_row h hidx hp hmem]; rfl
      · by_cases hguard : p ≠ nullObj ∧ pidx.isValid = false
        · rw [objectRemoved_unresolved h hguard.1 hidx hguard.2]; rfl
        · have hp : p = nullObj ∨ pidx.isValid = true := by
            by_cases h0 : p = nullObj
            · exact Or.inl h0
            · right
              by_contra hc
              exact hguard ⟨h0, by simpa using hc⟩
          rw [objectRemoved_missing h hidx hp hmem]; rfl

/-- C8, witness: the four cases on concrete models. (1) Node 1 on the empty model.
(2) Node 2 recorded under the unresolved parent 1. (3) Node 1 recorded under the root but
missing from the children of the root. (4) `Removed(B)` in the scenario. -/
theorem objectRemoved_stale_is_silent_witness :
    (ObjectTreeModel.empty.m_childParentMap 1 = none ∧
      ∀ fuel, objectRemoved 2 fuel ObjectTreeModel.empty 1 = some ObjectTreeModel.empty) ∧
    (orphanModel.m_childParentMap 2 = some 1 ∧ (1 : QObjectPtr) ≠ nullObj ∧
      indexForObject 2 orphanModel 2 1 = some QModelIndex.null ∧
      QModelIndex.null.isValid = false ∧
      ∀ fuel, 2 ≤ fuel → objectRemoved 2 fuel orphanModel 2 = some orphanModel) ∧
    (danglingEntry.m_childParentMap 1 = some nullObj ∧
      indexForObject 2 danglingEntry 1 nullObj = some QModelIndex.null ∧
      1 ∉ danglingEntry.childrenOf nullObj ∧
      ∀ fuel, 1 ≤ fuel → ∃ m', objectRemoved 2 fuel danglingEntry 1 = some m' ∧
        m'.signals = danglingEntry.signals ∧
        m'.m_childParentMap = danglingEntry.m_childParentMap ∧
        ∀ q, m'.childrenOf q = danglingEntry.childrenOf q) ∧
    (scenarioABC.m_childParentMap 2 = some 1 ∧
      indexForObject 2 scenarioABC 2 1 = some (createIndex 0 0 1) ∧
      (createIndex 0 0 1).isValid = true ∧ 2 ∈ scenarioABC.childrenOf 1 ∧
      ∀ fuel, 2 ≤ fuel → ∃ m', objectRemoved 2 fuel scenarioABC 2 = some m' ∧
        m'.signals = scenarioABC.signals ++
          [Signal.beginRemoveRows (createIndex 0 0 1)
              (vectorIndexOf (scenarioABC.childrenOf 1) 2)
              (vectorIndexOf (scenarioABC.childrenOf 1) 2),
            Signal.endRemoveRows]) :=
  ⟨⟨rfl, (objectRemoved_stale_is_silent ObjectTreeModel.empty 1).1 rfl⟩,
    ⟨rfl, by decide, rfl, rfl,
      (objectRemoved_stale_is_silent orphanModel 2).2.1 1 2 QModelIndex.null rfl (by decide)
        rfl rfl⟩,
    ⟨rfl, rfl, by decide,
      (objectRemoved_stale_is_silent danglingEntry 1).2.2.1 nullObj 1 QModelIndex.null rfl
        rfl (by decide)⟩,
    ⟨rfl, rfl, rfl, by decide,
      (objectRemoved_stale_is_silent scenarioABC 2).2.2.2.1 1 2 (createIndex 0 0 1) rfl rfl
        (Or.inr rfl) (by decide)⟩⟩

/-! ## C9 and C10: what `objectReparanted` emits -/

/-- C9, the code at the failing input. In the scenario the live node `C` is indexed under
`A` and the source graph now reports the null parent for it. `objectReparanted(C)` returns
and emits exactly one pair, the removal of row 0 under the position of `A`: no
`beginInsertRows` precedes it, no signal of an insertion is emitted at all. -/
theorem objectReparanted_live_emits_no_insert :
    indexForObject 2 scenarioAC 3 3 = some (createIndex 0 0 3) ∧
    scenarioAC.parentValue 3 = 1 ∧
    reparentedProbe.isValidObject 3 = true ∧ reparentedProbe.parent 3 = nullObj ∧
    ∃ m, (∀ fuel, 4 ≤ fuel → objectReparanted 2 reparentedProbe fuel scenarioAC 3 = some m) ∧
      m.signals = scenarioAC.signals ++
        [Signal.beginRemoveRows (createIndex 0 0 1) 0 0, Signal.endRemoveRows] ∧
      ∀ s ∈ m.signals.drop scenarioAC.signals.length, s.isInsert = false :=
  ⟨rfl, rfl, rfl, rfl, eraseRow scenarioAC (createIndex 0 0 1) 1 3 0,
    fun _ hf => objectReparanted_mono (show objectReparanted 2 reparentedProbe 4 scenarioAC 3 =
      some (eraseRow scenarioAC (createIndex 0 0 1) 1 3 0) from rfl) hf, rfl, by decide⟩

/-- What `objectRemoved` emits: nothing, or one removal pair. -/
theorem objectRemoved_signals {cc : Int} {fuel : Nat} {m m' : ObjectTreeModel}
    {x : QObjectPtr} (h : objectRemoved cc fuel m x = some m') :
    m'.signals = m.signals ∨
      ∃ pidx row, m'.signals = m.signals ++
        [Signal.beginRemoveRows pidx row row, Signal.endRemoveRows] := by
  unfold objectRemoved at h
  split at h
  · rw [← Option.some.inj h]; exact Or.inl rfl
  · simp only at h
    split at h
    · exact absurd h (Option.noConfusion)
    · split at h
      · rw [← Option.some.inj h]; exact Or.inl rfl
      · split at h
        · rw [← Option.some.inj h]; exact Or.inl rfl
        · rw [← Option.some.inj h]; exact Or.inr ⟨_, _, rfl⟩

/-- C10. For every model and every node `x` that is not live, `objectReparanted(x)` is
`objectRemoved(x)`: with any fuel both return the same model (maps and emitted signals) or
both do not return; and what `objectReparanted(x)` emits contains no signal of an
insertion. -/
theorem objectReparanted_dead_eq_objectRemoved {cc : Int} {probe : Probe} (fuel : Nat)
    (m : ObjectTreeModel) {x : QObjectPtr} (hdead : probe.isValidObject x = false) :
    objectReparanted cc probe fuel m x = objectRemoved cc fuel m x ∧
    ∀ m', objectReparanted cc probe fuel m x = some m' →
      ∃ emitted, m'.signals = m.signals ++ emitted ∧ ∀ s ∈ emitted, s.isInsert = false := by
  have heq : objectReparanted cc probe fuel m x = objectRemoved cc fuel m x := by
    simp [objectReparanted, hdead]
  refine ⟨heq, ?_⟩
  intro m' h
  rw [heq] at h
  rcases objectRemoved_signals h with h1 | ⟨pidx, row, h1⟩
  · exact ⟨[], by simp [h1], by simp⟩
  · refine ⟨_, h1, ?_⟩
    intro s hs
    simp only [List.mem_cons, List.mem_singleton, List.not_mem_nil, or_false] at hs
    rcases hs with rfl | rfl <;> rfl

/-- C10, witness: in the scenario with all three nodes indexed, under a source graph in
which `C` is no longer live, `Reparented(C)` is `Removed(C)`: row 1 under `A` is removed. -/
theorem objectReparanted_dead_eq_objectRemoved_witness :
    orphanProbe.isValidObject 3 = false ∧
    objectRemoved 2 3 scenarioABC 3 = some (eraseRow scenarioABC (createIndex 0 0 1) 1 3 1) ∧
    objectReparanted 2 orphanProbe 3 scenarioABC 3 = objectRemoved 2 3 scenarioABC 3 ∧
    ∀ m', objectReparanted 2 orphanProbe 3 scenarioABC 3 = some m' →
      ∃ emitted, m'.signals = scenarioABC.signals ++ emitted ∧
        ∀ s ∈ emitted, s.isInsert = false :=
  ⟨rfl, rfl, objectReparanted_dead_eq_objectRemoved 3 scenarioABC rfl⟩

/-! ## C11: the degraded read of `data` -/

/-- C11. For an invalid position `data` answers the empty variant. For a valid position
whose object fails `isValidObject`, the answer does not depend on the formatter
`dataForObject` (any other formatter gives the same answer), and it is the sentinel: for
the display role the address string of the handle in column 0 and the text `<deleted>`
(as `tr` answers it) in every other column, the empty variant for every other role. Only
for a live object the answer is `dataForObject(obj, index, role)`. -/
theorem data_degraded_read (probe : Probe) (display : Display) (index : QModelIndex)
    (role : Int) :
    (index.isValid = false → data probe display index role = QVariant.invalid) ∧
    (index.isValid = true → probe.isValidObject index.internalPointer = false →
      (∀ formatter, data probe ⟨formatter, display.addressToString, display.tr⟩ index role =
        data probe display index role) ∧
      (role = DisplayRole → index.column = 0 →
        data probe display index role =
          QVariant.string (display.addressToString index.internalPointer)) ∧
      (role = DisplayRole → index.column ≠ 0 →
        data probe display index role = QVariant.string (display.tr "<deleted>")) ∧
      (role ≠ DisplayRole → data probe display index role = QVariant.invalid)) ∧
    (index.isValid = true → probe.isValidObject index.internalPointer = true →
      data probe display index role =
        display.dataForObject index.internalPointer index role) := by
  refine ⟨?_, ?_, ?_⟩
  · intro h
    simp [data, h]
  · intro h hdead
    refine ⟨?_, ?_, ?_, ?_⟩
    · intro formatter
      simp [data, h, hdead]
    · intro hr hc
      simp [data, h, hdead, hr, hc]
    · intro hr hc
      simp [data, h, hdead, hr, hc]
    · intro hr
      simp [data, h, hdead, hr]
  · intro h hlive
    simp [data, h, hlive]

/-- C11, witness: in the scenario, under a source graph in which only the object 2 is live,
the position of `C` (row 1, object 3) reads as the address `3` in column 0 and as
`<deleted>` in column 1 for the display role, as the empty variant for role 1; the root
position reads as the empty variant; the position of the live object 2 reads as the
formatter says. -/
theorem data_degraded_read_witness :
    data orphanProbe plainDisplay QModelIndex.null DisplayRole = QVariant.invalid ∧
    (createIndex 1 0 3).isValid = true ∧
    orphanProbe.isValidObject (createIndex 1 0 3).internalPointer = false ∧
    (∀ formatter, data orphanProbe ⟨formatter, plainDisplay.addressToString, plainDisplay.tr⟩
        (createIndex 1 0 3) DisplayRole =
      data orphanProbe plainDisplay (createIndex 1 0 3) DisplayRole) ∧
    data orphanProbe plainDisplay (createIndex 1 0 3) DisplayRole = QVariant.string "3" ∧
    data orphanProbe plainDisplay (createIndex 1 1 3) DisplayRole =
      QVariant.string "<deleted>" ∧
    data orphanProbe plainDisplay (createIndex 1 0 3) 1 = QVariant.invalid ∧
    data orphanProbe plainDisplay (createIndex 0 0 2) DisplayRole = QVariant.other 7 :=
  ⟨(data_degraded_read orphanProbe plainDisplay QModelIndex.null DisplayRole).1 rfl,
    rfl, rfl,
    ((data_degraded_read orphanProbe plainDisplay (createIndex 1 0 3) DisplayRole).2.1
      rfl rfl).1,
    by decide, by decide, by decide, by decide⟩

/-! ## C12: from a handle to its position and back -/

/-- C12. For every model and every node `x` for which `indexForObject` answers a valid
position `i`: the parent position `pidx` of `i` (what `parent(i)` answers) is what
`indexForObject` answers for the recorded parent of `x`, the root position when `x` has
no recorded parent; the row of `i` lies in `0 ≤ row < rowCount(pidx)`; `index(row, 0, pidx)`
is `i` again; and the handle carried by `i` is `x`. -/
theorem indexForObject_round_trip {cc : Int} {m : ObjectTreeModel} {n : Nat} {x : QObjectPtr}
    {i : QModelIndex} (h : indexForObject cc m n x = some i) (hv : i.isValid = true) :
    ∃ k pidx, n = k + 1 ∧ parent cc m k i = some pidx ∧
      indexForObject cc m k (m.parentValue x) = some pidx ∧
      (m.parentValue x = nullObj → pidx = QModelIndex.null) ∧
      0 ≤ i.row ∧ i.row < rowCount m pidx ∧
      index cc m i.row 0 pidx = i ∧ i.internalPointer = x := by
  obtain ⟨hx, hcc, hmem, hi, k, pidx, hk, hp, hpar⟩ := indexForObject_valid cc m n x i h hv
  have hptr : pidx.internalPointer = m.parentValue x := by
    rcases hpar with h0 | hvalid
    · rw [h0] at hp
      rw [indexForObject_null_eq cc m hp, h0]
      rfl
    · rw [(indexForObject_valid cc m k _ pidx hp hvalid).2.2.2.1]
      rfl
  have hcol : pidx.column ≠ 1 := by
    rcases hpar with h0 | hvalid
    · rw [h0] at hp
      rw [indexForObject_null_eq cc m hp]
      decide
    · rw [(indexForObject_valid cc m k _ pidx hp hvalid).2.2.2.1]
      exact (by decide : (0 : Int) ≠ 1)
  have hix : i.internalPointer = x := by rw [hi]; rfl
  have hrow : i.row = vectorIndexOf (m.childrenOf (m.parentValue x)) x := by rw [hi]; rfl
  refine ⟨k, pidx, hk, ?_, hp, ?_, ?_, ?_, ?_, hix⟩
  · unfold parent
    rw [hix]; exact hp
  · intro h0
    rw [h0] at hp
    exact indexForObject_null_eq cc m hp
  · rw [hrow]; exact vectorIndexOf_nonneg hmem
  · unfold rowCount
    rw [if_neg hcol, hptr, hrow]
    exact vectorIndexOf_lt hmem
  · rw [hrow, ← hptr]
    rw [← hptr] at hmem
    rw [index_of_row cc m x pidx hcc hmem, hptr, hi]
    rfl

/-- C12, witness: node `C` of the scenario, at row 1 under `A`, which is at row 0 of the
root. -/
theorem indexForObject_round_trip_witness :
    indexForObject 2 scenarioABC 3 3 = some (createIndex 1 0 3) ∧
    (createIndex 1 0 3).isValid = true ∧
    indexForObject 2 scenarioABC 2 (scenarioABC.parentValue 3) = some (createIndex 0 0 1) ∧
    rowCount scenarioABC (createIndex 0 0 1) = 2 ∧
    ∃ k pidx, 3 = k + 1 ∧ parent 2 scenarioABC k (createIndex 1 0 3) = some pidx ∧
      indexForObject 2 scenarioABC k (scenarioABC.parentValue 3) = some pidx ∧
      (scenarioABC.parentValue 3 = nullObj → pidx = QModelIndex.null) ∧
      0 ≤ (createIndex 1 0 3).row ∧ (createIndex 1 0 3).row < rowCount scenarioABC pidx ∧
      index 2 scenarioABC (createIndex 1 0 3).row 0 pidx = createIndex 1 0 3 ∧
      (createIndex 1 0 3).internalPointer = 3 :=
  ⟨rfl, rfl, rfl, rfl,
    indexForObject_round_trip
      (show indexForObject 2 scenarioABC 3 3 = some (createIndex 1 0 3) from rfl) rfl⟩

/-! ## C13: bounds-safe child lookup -/

/-- C13. For every model, every parent position and all integers `row` and `column`:
`index(row, column, parent)` is valid exactly when `0 ≤ row < ` the length of the children
sequence of the node of `parent` and `0 ≤ column < columnCount`; then it is the position
`(row, column)` carrying the `row`-th child of that sequence; otherwise it is the invalid
position; and when the node of `parent` has no children sequence, `index` answers the
invalid position and `rowCount(parent)` is 0. -/
theorem index_bounds_safe (cc : Int) (m : ObjectTreeModel) (parentIndex : QModelIndex)
    (row column : Int) :
    ((index cc m row column parentIndex).isValid = true ↔
      (0 ≤ row ∧ row < ((m.childrenOf parentIndex.internalPointer).length : Int) ∧
        0 ≤ column ∧ column < cc)) ∧
    ((index cc m row column parentIndex).isValid = true →
      ∃ child, (m.childrenOf parentIndex.internalPointer)[row.toNat]? = some child ∧
        index cc m row column parentIndex = createIndex row column child) ∧
    ((index cc m row column parentIndex).isValid = false →
      index cc m row column parentIndex = QModelIndex.null) ∧
    (m.m_parentChildMap parentIndex.internalPointer = none →
      index cc m row column parentIndex = QModelIndex.null ∧ rowCount m parentIndex = 0) := by
  have hiff : (index cc m row column parentIndex).isValid = true ↔
      (0 ≤ row ∧ row < ((m.childrenOf parentIndex.internalPointer).length : Int) ∧
        0 ≤ column ∧ column < cc) := by
    constructor
    · exact index_isValid cc m row column parentIndex
    · intro ⟨h1, h2, h3, h4⟩
      unfold index
      simp only
      rw [if_neg (by omega)]
      simp [createIndex, QModelIndex.isValid, h1, h3]
  refine ⟨hiff, ?_, ?_, ?_⟩
  · intro hv
    obtain ⟨h1, h2, h3, h4⟩ := hiff.mp hv
    have hlt : row.toNat < (m.childrenOf parentIndex.internalPointer).length := by omega
    refine ⟨(m.childrenOf parentIndex.internalPointer).getD row.toNat nullObj, ?_, ?_⟩
    · rw [List.getD_eq_getElem _ _ hlt, List.getElem?_eq_getElem hlt]
    · unfold index
      simp only
      rw [if_neg (by omega)]
  · intro hinv
    unfold index at hinv ⊢
    simp only at hinv ⊢
    split
    · rfl
    · rename_i hcond
      rw [if_neg hcond] at hinv
      have : 0 ≤ row ∧ 0 ≤ column := by omega
      simp [createIndex, QModelIndex.isValid, this.1, this.2] at hinv
  · intro hnone
    have hempty : m.childrenOf parentIndex.internalPointer = [] := by
      simp [ObjectTreeModel.childrenOf, hnone]
    constructor
    · unfold index
      simp only
      rw [hempty, if_pos]
      simp only [List.length_nil, Nat.cast_zero]
      omega
    · unfold rowCount
      rw [hempty]
      simp

/-- C13, witness: the children `[B, C]` of `A` in the scenario. Row 1, column 0 under the
position of `A` is the position of `C`; row 2, row -1 and column 2 give the invalid
position; under the position of `C`, which has no children sequence, every lookup is
invalid and the row count is 0. -/
theorem index_bounds_safe_witness :
    index 2 scenarioABC 1 0 (createIndex 0 0 1) = createIndex 1 0 3 ∧
    index 2 scenarioABC 2 0 (createIndex 0 0 1) = QModelIndex.null ∧
    index 2 scenarioABC (-1) 0 (createIndex 0 0 1) = QModelIndex.null ∧
    index 2 scenarioABC 1 2 (createIndex 0 0 1) = QModelIndex.null ∧
    scenarioABC.m_parentChildMap (createIndex 1 0 3).internalPointer = none ∧
    index 2 scenarioABC 0 0 (createIndex 1 0 3) = QModelIndex.null ∧
    rowCount scenarioABC (createIndex 1 0 3) = 0 ∧
    ((index 2 scenarioABC 1 0 (createIndex 0 0 1)).isValid = true ↔
      (0 ≤ (1 : Int) ∧
        (1 : Int) < ((scenarioABC.childrenOf (createIndex 0 0 1).internalPointer).length : Int) ∧
        0 ≤ (0 : Int) ∧ (0 : Int) < 2)) :=
  ⟨rfl, rfl, rfl, rfl, rfl,
    ((index_bounds_safe 2 scenarioABC (createIndex 1 0 3) 0 0).2.2.2 rfl).1,
    ((index_bounds_safe 2 scenarioABC (createIndex 1 0 3) 0 0).2.2.2 rfl).2,
    (index_bounds_safe 2 scenarioABC (createIndex 0 0 1) 1 0).1⟩

/-! ## C14: adding a dead node -/

/-- C14. For every model and every node `x` that fails `isValidObject`, `objectAdded(x)`
returns the model it was given: both maps unchanged, nothing emitted, no ancestor inserted,
whatever the parent of `x` is. -/
theorem objectAdded_dead_is_noop {cc : Int} {probe : Probe} (m : ObjectTreeModel)
    {x : QObjectPtr} (hdead : probe.isValidObject x = false) :
    ∀ fuel, 1 ≤ fuel → objectAdded cc probe fuel m x = some m := by
  intro fuel hf
  obtain ⟨k, rfl⟩ : ∃ k, fuel = k + 1 := ⟨fuel - 1, by omega⟩
  exact objectAdded_dead k m hdead

/-- C14, witness: `Added(3)` on the empty model, for the dead object 3 whose reported
parent 1 is live and not indexed: nothing changes, the parent is not inserted. -/
theorem objectAdded_dead_is_noop_witness :
    deadLeafProbe.isValidObject 3 = false ∧ deadLeafProbe.parent 3 = 1 ∧
    deadLeafProbe.isValidObject 1 = true ∧
    ∀ fuel, 1 ≤ fuel →
      objectAdded 2 deadLeafProbe fuel ObjectTreeModel.empty 3 = some ObjectTreeModel.empty :=
  ⟨rfl, rfl, rfl, objectAdded_dead_is_noop ObjectTreeModel.empty rfl⟩

/-! ## C17: reparenting an indexed node -/

/-- C17, counterexample. The model with the children `[2, 2]` of node 1 is reachable
(`Added(2)` twice while the parent 1 is not live, then `Added(1)`). Node 2 has a valid
position in it. `objectReparanted(2)` returns what `objectRemoved(2)` returns, and
afterwards node 2 still occurs in the children of its old (and new) parent 1. -/
theorem objectReparanted_indexed_still_listed :
    Reachable 2 duplicateModel ∧
    indexForObject 2 duplicateModel 3 2 = some (createIndex 0 0 2) ∧
    duplicateModel.parentValue 2 = 1 ∧ scenarioProbe.parent 2 = 1 ∧
    ∃ m, (∀ fuel, 4 ≤ fuel → objectReparanted 2 scenarioProbe fuel duplicateModel 2 = some m) ∧
      (∀ fuel, 4 ≤ fuel → objectRemoved 2 fuel duplicateModel 2 = some m) ∧
      m.childrenOf 1 = [2] := by
  refine ⟨?_, rfl, rfl, rfl, eraseRow duplicateModel (createIndex 0 0 1) 1 2 0, ?_, ?_, rfl⟩
  · have h1 : applyEvent 2 orphanProbe 3 ObjectTreeModel.empty (Event.added 2) =
        some orphanModel := rfl
    have h2 : applyEvent 2 orphanProbe 4 orphanModel (Event.added 2) =
        some (appendRow orphanModel QModelIndex.null 1 2) := rfl
    have h3 : applyEvent 2 scenarioProbe 3 (appendRow orphanModel QModelIndex.null 1 2)
        (Event.added 1) = some duplicateModel := rfl
    exact Reachable.step _ _ _ (Reachable.step _ _ _ (Reachable.step _ _ _ Reachable.init h1)
      h2) h3
  · intro fuel hf
    exact objectReparanted_mono (show objectReparanted 2 scenarioProbe 4 duplicateModel 2 =
      some (eraseRow duplicateModel (createIndex 0 0 1) 1 2 0) from rfl) hf
  · intro fuel hf
    exact objectRemoved_mono (show objectRemoved 2 4 duplicateModel 2 =
      some (eraseRow duplicateModel (createIndex 0 0 1) 1 2 0) from rfl) hf

/-- C17, amended. For every model whose maps are mutual inverses and every node `x` with a
valid position, live or not: `objectReparanted(x)` returns exactly what `objectRemoved(x)`
returns (same maps, same emitted signals), and afterwards `x` has no child→parent entry
and occurs neither in the children of its old parent nor in the children of the parent the
source graph reports. -/
theorem objectReparanted_indexed_eq_objectRemoved {cc : Int} {probe : Probe}
    {m : ObjectTreeModel} {x : QObjectPtr} {n : Nat} {i : QModelIndex}
    (hmi : MutualInverse m) (h : indexForObject cc m n x = some i) (hv : i.isValid = true) :
    ∃ m', (∀ fuel, n < fuel → objectReparanted cc probe fuel m x = some m') ∧
      (∀ fuel, n < fuel → objectRemoved cc fuel m x = some m') ∧
      m'.m_childParentMap x = none ∧
      x ∉ m'.childrenOf (m.parentValue x) ∧
      x ∉ m'.childrenOf (probe.parent x) := by
  obtain ⟨hx, hcc, hmem, hi, k, pidx, hk, hp, hpar⟩ := indexForObject_valid cc m n x i h hv
  have hentry := hmi.2 _ _ hmem
  have hcount := hmi.1 _ _ hentry
  have hpx : m.parentValue x ≠ x := (chain_of_indexForObject cc m n x i h hv).parentValue_ne
  have hrem : ∀ fuel, n < fuel → objectRemoved cc fuel m x =
      some (eraseRow m pidx (m.parentValue x) x
        (vectorIndexOf (m.childrenOf (m.parentValue x)) x)) := by
    intro fuel hf
    exact objectRemoved_row hentry (indexForObject_mono cc m k fuel _ pidx hp (by omega))
      hpar hmem
  have hchildren : ∀ q, (eraseRow m pidx (m.parentValue x) x
      (vectorIndexOf (m.childrenOf (m.parentValue x)) x)).childrenOf q =
      if q = x then [] else if q = m.parentValue x then (m.childrenOf (m.parentValue x)).erase x
      else m.childrenOf q := by
    intro q
    rw [childrenOf_eraseRow, eraseIdx_vectorIndexOf hmem]
  have hold : x ∉ (m.childrenOf (m.parentValue x)).erase x := by
    apply List.count_eq_zero.mp
    rw [List.count_erase_self, hcount]
  refine ⟨_, ?_, hrem, ?_, ?_, ?_⟩
  · intro fuel hf
    rw [← hrem fuel hf]
    unfold objectReparanted
    cases hlive : probe.isValidObject x with
    | false => simp
    | true =>
      have hadd : objectAdded cc probe fuel m x = some m :=
        objectAdded_mono cc probe (n + 1) fuel m m x (objectAdded_indexed h hv) (by omega)
      simp [hadd]
  · rw [parentMap_eraseRow, if_pos rfl]
  · rw [hchildren, if_neg hpx, if_pos rfl]
    exact hold
  · rw [hchildren]
    by_cases hq : probe.parent x = x
    · rw [if_pos hq]; exact List.not_mem_nil _
    · rw [if_neg hq]
      by_cases hq2 : probe.parent x = m.parentValue x
      · rw [if_pos hq2]; exact hold
      · rw [if_neg hq2]
        intro hmem2
        have := hmi.2 _ _ hmem2
        rw [hentry] at this
        exact hq2 (Option.some.inj this).symm

/-- C17, witness: `Reparented(C)` in the scenario with `C` live and indexed under `A`, the
source graph still reporting `A` as its parent. -/
theorem objectReparanted_indexed_eq_objectRemoved_witness :
    MutualInverse scenarioABC ∧
    indexForObject 2 scenarioABC 3 3 = some (createIndex 1 0 3) ∧
    (createIndex 1 0 3).isValid = true ∧ scenarioProbe.isValidObject 3 = true ∧
    ∃ m', (∀ fuel, 3 < fuel → objectReparanted 2 scenarioProbe fuel scenarioABC 3 = some m') ∧
      (∀ fuel, 3 < fuel → objectRemoved 2 fuel scenarioABC 3 = some m') ∧
      m'.m_childParentMap 3 = none ∧
      3 ∉ m'.childrenOf (scenarioABC.parentValue 3) ∧
      3 ∉ m'.childrenOf (scenarioProbe.parent 3) :=
  have hmi : MutualInverse scenarioABC :=
    (leafReachable_consistent (by decide) (LeafReachable.added scenarioProbe 3 2 3
      leafReachable_scenarioAB scenarioProbe_parentsLive (fun _ => by decide)
      scenario_steps.2.2.1)).1
  ⟨hmi, rfl, rfl, rfl,
    objectReparanted_indexed_eq_objectRemoved hmi
      (show indexForObject 2 scenarioABC 3 3 = some (createIndex 1 0 3) from rfl) rfl⟩

/-! ## C18: removing a node that has children -/

/-- C18. For every model whose maps are mutual inverses and every node `p` with a valid
position `i`: `objectRemoved(p)` returns; it emits exactly one pair, the removal of the
row of `p` under the position `pidx` of its recorded parent, which is not the position of
`p`, so no removal is announced for a row under `p`; afterwards `p` has no children
sequence and no child→parent entry, and every former child `c` of `p` still has the
child→parent entry `p` while `indexForObject(c)` answers the invalid position. -/
theorem objectRemoved_orphans_children {cc : Int} {m : ObjectTreeModel} {p : QObjectPtr}
    {n : Nat} {i : QModelIndex} (hmi : MutualInverse m)
    (h : indexForObject cc m n p = some i) (hv : i.isValid = true) :
    ∃ m' pidx, (∀ fuel, n ≤ fuel → objectRemoved cc fuel m p = some m') ∧
      m'.signals = m.signals ++
        [Signal.beginRemoveRows pidx i.row i.row, Signal.endRemoveRows] ∧
      pidx.internalPointer ≠ p ∧ pidx ≠ i ∧
      m'.childrenOf p = [] ∧ m'.m_parentChildMap p = none ∧ m'.m_childParentMap p = none ∧
      ∀ c, c ∈ m.childrenOf p →
        m'.m_childParentMap c = some p ∧
        ∀ fuel, indexForObject cc m' (fuel + 3) c = some QModelIndex.null := by
  obtain ⟨hp0, hcc, hmem, hi, k, pidx, hk, hpidx, hpar⟩ := indexForObject_valid cc m n p i h hv
  have hentry := hmi.2 _ _ hmem
  have hcount := hmi.1 _ _ hentry
  have hqp : m.parentValue p ≠ p := (chain_of_indexForObject cc m n p i h hv).parentValue_ne
  have hptr : pidx.internalPointer = m.parentValue p := by
    rcases hpar with h0 | hvalid
    · rw [h0] at hpidx
      rw [indexForObject_null_eq cc m hpidx, h0]
      rfl
    · rw [(indexForObject_valid cc m k _ pidx hpidx hvalid).2.2.2.1]
      rfl
  have hrow : i.row = vectorIndexOf (m.childrenOf (m.parentValue p)) p := by rw [hi]; rfl
  have hchildren : ∀ q, (eraseRow m pidx (m.parentValue p) p i.row).childrenOf q =
      if q = p then [] else if q = m.parentValue p then (m.childrenOf (m.parentValue p)).erase p
      else m.childrenOf q := by
    intro q
    rw [childrenOf_eraseRow, hrow, eraseIdx_vectorIndexOf hmem]
  -- `p` is no child of the root any more
  have hroot : p ∉ (eraseRow m pidx (m.parentValue p) p i.row).childrenOf nullObj := by
    rw [hchildren, if_neg (fun h0 => hp0 h0.symm)]
    by_cases hq : nullObj = m.parentValue p
    · rw [if_pos hq]
      apply List.count_eq_zero.mp
      rw [List.count_erase_self, hcount]
    · rw [if_neg hq]
      intro hmem0
      have := hmi.2 _ _ hmem0
      rw [hentry] at this
      exact hq (Option.some.inj this).symm
  have hpv : (eraseRow m pidx (m.parentValue p) p i.row).parentValue p = nullObj := by
    simp [ObjectTreeModel.parentValue, parentMap_eraseRow]
  have hpnull : ∀ fuel, indexForObject cc (eraseRow m pidx (m.parentValue p) p i.row)
      (fuel + 2) p = some QModelIndex.null := by
    intro fuel
    rw [indexForObject_succ, if_neg hp0, hpv, indexForObject_null]
    simp only [ne_eq, not_true_eq_false, and_false, if_false]
    rw [vectorIndexOf_neg hroot]
    simp
  refine ⟨eraseRow m pidx (m.parentValue p) p i.row, pidx, ?_, rfl, ?_, ?_, ?_, ?_, ?_, ?_⟩
  · intro fuel hf
    rw [objectRemoved_row hentry (indexForObject_mono cc m k fuel _ pidx hpidx (by omega))
      hpar hmem, hrow]
  · rw [hptr]; exact hqp
  · intro hpi
    apply hqp
    rw [← hptr, hpi, hi]
    rfl
  · rw [hchildren, if_pos rfl]
  · simp [eraseRow, hashRemove]
  · rw [parentMap_eraseRow, if_pos rfl]
  · intro c hc
    have hce := hmi.2 _ _ hc
    have hcp : c ≠ p := by
      rintro rfl
      rw [hentry] at hce
      exact hqp (Option.some.inj hce)
    have hce' : (eraseRow m pidx (m.parentValue p) p i.row).m_childParentMap c = some p := by
      rw [parentMap_eraseRow, if_neg hcp]; exact hce
    refine ⟨hce', ?_⟩
    intro fuel
    rw [indexForObject_succ]
    by_cases hc0 : c = nullObj
    · rw [if_pos hc0]
    · rw [if_neg hc0, parentValue_of_entry hce', hpnull fuel]
      simp [isValid_null, hp0]

/-- C18, witness: in the scenario, `Removed(A)` while `A` has the children `[B, C]`: one
pair for row 0 of the root; `B` and `C` keep the recorded parent `A` and lose their
position. -/
theorem objectRemoved_orphans_children_witness :
    MutualInverse scenarioABC ∧
    indexForObject 2 scenarioABC 2 1 = some (createIndex 0 0 1) ∧
    (createIndex 0 0 1).isValid = true ∧ scenarioABC.childrenOf 1 = [2, 3] ∧
    ∃ m' pidx, (∀ fuel, 2 ≤ fuel → objectRemoved 2 fuel scenarioABC 1 = some m') ∧
      m'.signals = scenarioABC.signals ++
        [Signal.beginRemoveRows pidx (createIndex 0 0 1).row (createIndex 0 0 1).row,
          Signal.endRemoveRows] ∧
      pidx.internalPointer ≠ 1 ∧ pidx ≠ createIndex 0 0 1 ∧
      m'.childrenOf 1 = [] ∧ m'.m_parentChildMap 1 = none ∧ m'.m_childParentMap 1 = none ∧
      ∀ c, c ∈ scenarioABC.childrenOf 1 →
        m'.m_childParentMap c = some 1 ∧
        ∀ fuel, indexForObject 2 m' (fuel + 3) c = some QModelIndex.null :=
  have hmi : MutualInverse scenarioABC :=
    (leafReachable_consistent (by decide) (LeafReachable.added scenarioProbe 3 2 3
      leafReachable_scenarioAB scenarioProbe_parentsLive (fun _ => by decide)
      scenario_steps.2.2.1)).1
  ⟨hmi, rfl, rfl, rfl,
    objectRemoved_orphans_children hmi
      (show indexForObject 2 scenarioABC 2 1 = some (createIndex 0 0 1) from rfl) rfl⟩

/-! ## C19: leaf-only removal -/

theorem nodup_of_mutualInverse {m : ObjectTreeModel} (hmi : MutualInverse m) (p : QObjectPtr) :
    (m.childrenOf p).Nodup := by
  rw [List.nodup_iff_count_le_one]
  intro c
  by_cases hc : c ∈ m.childrenOf p
  · rw [hmi.1 c p (hmi.2 p c hc)]
  · rw [List.count_eq_zero_of_not_mem hc]
    omega

theorem leafReachable_of_addRemoveReachable {cc : Int} {probe : Probe}
    (hprobe : probe.ParentsLive) (hfinite : ∀ x, ∃ d, chainLength probe d x = true)
    {m : ObjectTreeModel} (h : AddRemoveReachable cc probe m) : LeafReachable cc m := by
  induction h with
  | init => exact LeafReachable.init
  | added fuel x _ hrun ih =>
    obtain ⟨d, hd⟩ := hfinite x
    exact LeafReachable.added probe fuel d x ih hprobe (fun _ => hd) hrun
  | removed fuel x _ hleaf hrun ih => exact LeafReachable.removed fuel x ih hleaf hrun

/-- On a consistent model `objectRemoved` returns, with two units of fuel or with the fuel
that resolves the recorded parent. -/
theorem objectRemoved_returns {cc : Int} {m : ObjectTreeModel} (hc : Consistent cc m)
    (x : QObjectPtr) : ∃ N m', ∀ fuel, N ≤ fuel → objectRemoved cc fuel m x = some m' := by
  cases hentry : m.m_childParentMap x with
  | none => exact ⟨0, m, fun fuel _ => objectRemoved_absent fuel hentry⟩
  | some p =>
    obtain ⟨n, pidx, hpidx⟩ := terminates_of_consistent hc p
    have hsome : (objectRemoved cc n m x).isSome = true := by
      by_cases hmem : x ∈ m.childrenOf p
      · by_cases hguard : p ≠ nullObj ∧ pidx.isValid = false
        · rw [objectRemoved_unresolved hentry hguard.1 hpidx hguard.2]; rfl
        · have hp : p = nullObj ∨ pidx.isValid = true := by
            by_cases h0 : p = nullObj
            · exact Or.inl h0
            · right
              by_contra hcontra
              exact hguard ⟨h0, by simpa using hcontra⟩
          rw [objectRemoved_row hentry hpidx hp hmem]; rfl
      · by_cases hguard : p ≠ nullObj ∧ pidx.isValid = false
        · rw [objectRemoved_unresolved hentry hguard.1 hpidx hguard.2]; rfl
        · have hp : p = nullObj ∨ pidx.isValid = true := by
            by_cases h0 : p = nullObj
            · exact Or.inl h0
            · right
              by_contra hcontra
              exact hguard ⟨h0, by simpa using hcontra⟩
          rw [objectRemoved_missing hentry hpidx hp hmem]; rfl
    obtain ⟨m', hm'⟩ := Option.isSome_iff_exists.mp hsome
    exact ⟨n, m', fun fuel hf => objectRemoved_mono hm' hf⟩

/-- C19. Under a source graph that never attests null, in which every parent chain is
finite and the parent of every live node is null or live, every model reached from the
empty one by `objectAdded` for arbitrary nodes and `objectRemoved` for nodes whose children
sequence is empty satisfies the mutual-inverse invariant, has no duplicate in any children
sequence, and has a valid position for every node with a child→parent entry; and from
every such model the next `objectAdded` and the next `objectRemoved` return. -/
theorem addRemoveReachable_consistent {cc : Int} {probe : Probe} (hcc : 0 < cc)
    (hprobe : probe.ParentsLive) (hfinite : ∀ x, ∃ d, chainLength probe d x = true)
    {m : ObjectTreeModel} (h : AddRemoveReachable cc probe m) :
    MutualInverse m ∧ (∀ p, (m.childrenOf p).Nodup) ∧
    (∀ c p, m.m_childParentMap c = some p →
      ∃ n i, indexForObject cc m n c = some i ∧ i.isValid = true) ∧
    (∀ x, ∃ N m', ∀ fuel, N ≤ fuel → objectAdded cc probe fuel m x = some m') ∧
    (∀ x, ∃ N m', ∀ fuel, N ≤ fuel → objectRemoved cc fuel m x = some m') := by
  have hc := leafReachable_consistent hcc (leafReachable_of_addRemoveReachable hprobe hfinite h)
  refine ⟨hc.1, nodup_of_mutualInverse hc.1, hc.2, ?_, objectRemoved_returns hc⟩
  intro x
  cases hv : probe.isValidObject x with
  | false =>
    refine ⟨1, m, ?_⟩
    intro fuel hf
    obtain ⟨k, rfl⟩ : ∃ k, fuel = k + 1 := ⟨fuel - 1, by omega⟩
    exact objectAdded_dead k m hv
  | true =>
    obtain ⟨d, hd⟩ := hfinite x
    obtain ⟨N, m', hrun, -⟩ := objectAdded_consistent hcc hprobe d m x hc hd hv
    exact ⟨N, m', hrun⟩

theorem scenarioProbe_finite : ∀ x, ∃ d, chainLength scenarioProbe d x = true := by
  intro x
  by_cases h0 : x = 0
  · exact ⟨0, by simp [chainLength, h0]⟩
  · by_cases h23 : x = 2 ∨ x = 3
    · refine ⟨2, ?_⟩
      simp [chainLength, scenarioProbe, h0, h23]
    · refine ⟨1, ?_⟩
      simp [chainLength, scenarioProbe, h0, h23]

/-- C19, witness: the scenario `Added(A)`, `Added(B)`, `Added(C)`, `Removed(B)`. -/
theorem addRemoveReachable_consistent_witness :
    (0 : Int) < 2 ∧ scenarioProbe.ParentsLive ∧
    (∀ x, ∃ d, chainLength scenarioProbe d x = true) ∧
    AddRemoveReachable 2 scenarioProbe scenarioAC ∧
    MutualInverse scenarioAC ∧ (∀ p, (scenarioAC.childrenOf p).Nodup) ∧
    (∀ c p, scenarioAC.m_childParentMap c = some p →
      ∃ n i, indexForObject 2 scenarioAC n c = some i ∧ i.isValid = true) ∧
    (∀ x, ∃ N m', ∀ fuel, N ≤ fuel → objectAdded 2 scenarioProbe fuel scenarioAC x = some m') ∧
    (∀ x, ∃ N m', ∀ fuel, N ≤ fuel → objectRemoved 2 fuel scenarioAC x = some m') :=
  have hreach : AddRemoveReachable 2 scenarioProbe scenarioAC :=
    AddRemoveReachable.removed 3 2
      (AddRemoveReachable.added 3 3
        (AddRemoveReachable.added 3 2
          (AddRemoveReachable.added 3 1 AddRemoveReachable.init scenario_steps.1)
          scenario_steps.2.1)
        scenario_steps.2.2.1)
      (show scenarioABC.childrenOf 2 = [] from rfl) scenario_steps.2.2.2
  ⟨by decide, scenarioProbe_parentsLive, scenarioProbe_finite, hreach,
    addRemoveReachable_consistent (by decide) scenarioProbe_parentsLive scenarioProbe_finite
      hreach⟩

/-! ## C20: the child→parent map stays acyclic -/

theorem indexForObject_some_succ {cc : Int} {m : ObjectTreeModel} {n : Nat} {z : QObjectPtr}
    {j : QModelIndex} (h : indexForObject cc m n (m.parentValue z) = some j) :
    ∃ i, indexForObject cc m (n + 1) z = some i := by
  rw [indexForObject_succ]
  by_cases hz : z = nullObj
  · exact ⟨_, by rw [if_pos hz]⟩
  · rw [if_neg hz, h]
    simp only
    split
    · exact ⟨_, rfl⟩
    · split
      · exact ⟨_, rfl⟩
      · exact ⟨_, rfl⟩

theorem indexForObject_parent_some {cc : Int} {m : ObjectTreeModel} {n : Nat} {z : QObjectPtr}
    {i : QModelIndex} (h : indexForObject cc m (n + 1) z = some i) (hz : z ≠ nullObj) :
    ∃ j, indexForObject cc m n (m.parentValue z) = some j := by
  rw [indexForObject_succ, if_neg hz] at h
  cases hp : indexForObject cc m n (m.parentValue z) with
  | none => simp [hp] at h
  | some j => exact ⟨j, rfl⟩

theorem reachesRoot_of_indexForObject {cc : Int} {m : ObjectTreeModel} :
    ∀ (n : Nat) (z : QObjectPtr) (i : QModelIndex),
      indexForObject cc m n z = some i → reachesRoot m n z = true := by
  intro n
  induction n with
  | zero => intro z i h; simp [indexForObject] at h
  | succ n ih =>
    intro z i h
    by_cases hz : z = nullObj
    · simp [reachesRoot, hz]
    · obtain ⟨j, hj⟩ := indexForObject_parent_some h hz
      simp [reachesRoot, ih _ _ hj]

/-- Termination of `indexForObject` carries over to a model in which every recorded parent
is the old one or null. -/
theorem terminates_of_parentValue {cc : Int} {m m' : ObjectTreeModel}
    (hpv : ∀ z, m'.parentValue z = m.parentValue z ∨ m'.parentValue z = nullObj)
    (hterm : ∀ z, ∃ n i, indexForObject cc m n z = some i) :
    ∀ z, ∃ n i, indexForObject cc m' n z = some i := by
  have key : ∀ (n : Nat) (z : QObjectPtr) (i : QModelIndex),
      indexForObject cc m n z = some i → ∃ n' i', indexForObject cc m' n' z = some i' := by
    intro n
    induction n with
    | zero => intro z i h; simp [indexForObject] at h
    | succ n ih =>
      intro z i h
      by_cases hz : z = nullObj
      · exact ⟨1, _, by rw [hz]; exact indexForObject_null cc m' 0⟩
      · obtain ⟨j, hj⟩ := indexForObject_parent_some h hz
        rcases hpv z with h1 | h1
        · obtain ⟨n', j', hj'⟩ := ih _ _ hj
          rw [← h1] at hj'
          obtain ⟨i', hi'⟩ := indexForObject_some_succ hj'
          exact ⟨n' + 1, i', hi'⟩
        · have h0 : indexForObject cc m' 1 (m'.parentValue z) = some QModelIndex.null := by
            rw [h1]; exact indexForObject_null cc m' 0
          obtain ⟨i', hi'⟩ := indexForObject_some_succ h0
          exact ⟨2, i', hi'⟩
  intro z
  obtain ⟨n, i, h⟩ := hterm z
  exact key n z i h

/-- Termination of `indexForObject` survives the insertion of a row when the inserted node
is resolved afterwards. -/
theorem terminates_appendRow {cc : Int} {m : ObjectTreeModel} (idx : QModelIndex)
    (p x : QObjectPtr) (hterm : ∀ z, ∃ n i, indexForObject cc m n z = some i)
    (hres : Resolved cc (appendRow m idx p x) x) :
    ∀ z, ∃ n i, indexForObject cc (appendRow m idx p x) n z = some i := by
  have key : ∀ (n : Nat) (z : QObjectPtr) (i : QModelIndex),
      indexForObject cc m n z = some i →
        ∃ n' i', indexForObject cc (appendRow m idx p x) n' z = some i' := by
    intro n
    induction n with
    | zero => intro z i h; simp [indexForObject] at h
    | succ n ih =>
      intro z i h
      by_cases hz : z = nullObj
      · exact ⟨1, _, by rw [hz]; exact indexForObject_null cc _ 0⟩
      · by_cases hzx : z = x
        · obtain ⟨n', i', hi', -⟩ := hres
          exact ⟨n', i', by rw [hzx]; exact hi'⟩
        · obtain ⟨j, hj⟩ := indexForObject_parent_some h hz
          obtain ⟨n', j', hj'⟩ := ih _ _ hj
          have hpv : (appendRow m idx p x).parentValue z = m.parentValue z := by
            rw [parentValue_appendRow, if_neg hzx]
          rw [← hpv] at hj'
          obtain ⟨i', hi'⟩ := indexForObject_some_succ hj'
          exact ⟨n' + 1, i', hi'⟩
  intro z
  obtain ⟨n, i, h⟩ := hterm z
  exact key n z i h

theorem insertRow_some {cc : Int} {probe : Probe} {fuel : Nat} {m m' : ObjectTreeModel}
    {x : QObjectPtr} (h : insertRow cc probe fuel m x = some m') :
    ∃ idx, m' = appendRow m idx (probe.parent x) x := by
  unfold insertRow at h
  cases hp : indexForObject cc m fuel (probe.parent x) with
  | none => simp [hp] at h
  | some idx =>
    simp only [hp] at h
    exact ⟨idx, (Option.some.inj h).symm⟩

/-- Under a source graph with live parents, `objectAdded` keeps `indexForObject`
terminating on every node. -/
theorem objectAdded_terminating {cc : Int} {probe : Probe} (hcc : 0 < cc)
    (hprobe : probe.ParentsLive) :
    ∀ (fuel d : Nat) (m m' : ObjectTreeModel) (x : QObjectPtr),
      objectAdded cc probe fuel m x = some m' →
      (∀ z, ∃ n i, indexForObject cc m n z = some i) →
      (probe.isValidObject x = true → chainLength probe d x = true) →
      ∀ z, ∃ n i, indexForObject cc m' n z = some i := by
  intro fuel
  induction fuel with
  | zero => intro d m m' x h; simp [objectAdded] at h
  | succ fuel ih =>
    intro d m m' x h hterm hd
    cases hv : probe.isValidObject x with
    | false =>
      rw [objectAdded_dead fuel m hv] at h
      rw [← Option.some.inj h]; exact hterm
    | true =>
      have hx : x ≠ nullObj := by
        rintro rfl
        rw [hprobe.1] at hv
        exact Bool.false_ne_true hv
      -- the node is resolved in the result, whatever path led there
      have hres : Resolved cc m' x := by
        obtain ⟨N, m2, hrun, hch⟩ := objectAdded_resolves hcc hprobe d m x hterm (hd hv) hv
        have h1 := objectAdded_mono cc probe (fuel + 1) (max (fuel + 1) N) m m' x h
          (le_max_left _ _)
        rw [hrun _ (le_max_right _ _)] at h1
        rw [← Option.some.inj h1]
        exact resolved_of_chain hch
      cases hown : indexForObject cc m fuel x with
      | none => simp [objectAdded, hv, hown] at h
      | some own =>
        cases hvalid : own.isValid with
        | true =>
          rw [objectAdded_indexed hown hvalid] at h
          rw [← Option.some.inj h]; exact hterm
        | false =>
          -- the row is appended to `m` or to the result of the recursive call
          have key : ∃ mX, (∀ z, ∃ n i, indexForObject cc mX n z = some i) ∧
              insertRow cc probe fuel mX x = some m' := by
            by_cases hp : probe.parent x = nullObj
            · rw [objectAdded_root hv hown hvalid hp] at h
              exact ⟨m, hterm, h⟩
            · cases hidx : indexForObject cc m fuel (probe.parent x) with
              | none => simp [objectAdded, hv, hown, hvalid, hp, hidx] at h
              | some idx =>
                cases hiv : idx.isValid with
                | true =>
                  rw [objectAdded_parent_indexed hv hown hvalid hidx hiv] at h
                  exact ⟨m, hterm, h⟩
                | false =>
                  cases hrec : objectAdded cc probe fuel m (probe.parent x) with
                  | none => simp [objectAdded, hv, hown, hvalid, hp, hidx, hiv, hrec] at h
                  | some m1 =>
                    rw [objectAdded_parent_first hv hown hvalid hp hidx hiv hrec] at h
                    have hdx := hd hv
                    cases d with
                    | zero =>
                      simp only [chainLength, decide_eq_true_eq] at hdx
                      exact absurd hdx hx
                    | succ d =>
                      simp only [chainLength, Bool.and_eq_true, decide_eq_true_eq] at hdx
                      exact ⟨m1, ih d m m1 _ hrec hterm (fun _ => hdx.2), h⟩
          obtain ⟨mX, htermX, hins⟩ := key
          obtain ⟨idx, rfl⟩ := insertRow_some hins
          exact terminates_appendRow idx _ x htermX hres

theorem objectRemoved_parentValue {cc : Int} {fuel : Nat} {m m' : ObjectTreeModel}
    {x : QObjectPtr} (h : objectRemoved cc fuel m x = some m') :
    ∀ z, m'.parentValue z = m.parentValue z ∨ m'.parentValue z = nullObj := by
  unfold objectRemoved at h
  split at h
  · rw [← Option.some.inj h]; exact fun z => Or.inl rfl
  · simp only at h
    split at h
    · exact absurd h (Option.noConfusion)
    · split at h
      · rw [← Option.some.inj h]; exact fun z => Or.inl rfl
      · split at h
        · rw [← Option.some.inj h]; exact fun z => Or.inl rfl
        · rw [← Option.some.inj h]
          intro z
          by_cases hz : z = x
          · right
            simp [ObjectTreeModel.parentValue, parentMap_eraseRow, hz]
          · left
            exact parentValue_eraseRow m _ _ x _ hz

theorem saneReachable_terminating {cc : Int} (hcc : 0 < cc) {m : ObjectTreeModel}
    (h : SaneReachable cc m) : ∀ z, ∃ n i, indexForObject cc m n z = some i := by
  induction h with
  | init => exact terminates_of_consistent (consistent_empty cc)
  | added probe fuel d x _ hprobe hd hrun ih =>
    exact objectAdded_terminating hcc hprobe fuel d _ _ x hrun ih hd
  | removed fuel x _ hrun ih =>
    exact terminates_of_parentValue (objectRemoved_parentValue hrun) ih
  | @reparented probe fuel d x m0 m1 _ hprobe hd hrun ih =>
    unfold objectReparanted at hrun
    cases hv : probe.isValidObject x with
    | false =>
      simp only [hv] at hrun
      exact terminates_of_parentValue (objectRemoved_parentValue hrun) ih
    | true =>
      simp only [hv, if_true] at hrun
      cases hadd : objectAdded cc probe fuel m0 x with
      | none => simp [hadd] at hrun
      | some m2 =>
        simp only [hadd] at hrun
        exact terminates_of_parentValue (objectRemoved_parentValue hrun)
          (objectAdded_terminating hcc hprobe fuel d _ _ x hadd ih hd)

/-- C20. In every model reachable from the empty one by a finite sequence of `objectAdded`,
`objectRemoved` and `objectReparanted` events, under a source graph that at each event
never attests null, reports a null or live parent for every live object and a finite
parent chain for the live object of the event: following the child→parent map from any
node reaches the null pointer in finitely many steps, and `indexForObject` returns for
every node. -/
theorem childParentMap_acyclic {cc : Int} (hcc : 0 < cc) {m : ObjectTreeModel}
    (h : SaneReachable cc m) (x : QObjectPtr) :
    (∃ k, reachesRoot m k x = true) ∧ ∃ n i, indexForObject cc m n x = some i := by
  obtain ⟨n, i, hi⟩ := saneReachable_terminating hcc h x
  exact ⟨⟨n, reachesRoot_of_indexForObject n x i hi⟩, n, i, hi⟩

/-- C20, witness: after `Added(A)`, `Added(B)`, `Removed(A)` the node `B` is an orphan; its
chain `B`, `A`, null is finite and `indexForObject(B)` returns. -/
theorem childParentMap_acyclic_witness :
    (0 : Int) < 2 ∧ SaneReachable 2 orphanedB ∧ orphanedB.m_childParentMap 2 = some 1 ∧
    orphanedB.m_childParentMap 1 = none ∧
    (∃ k, reachesRoot orphanedB k 2 = true) ∧
    ∃ n i, indexForObject 2 orphanedB n 2 = some i :=
  have hreach : SaneReachable 2 orphanedB :=
    SaneReachable.removed 3 1
      (SaneReachable.added scenarioProbe 3 2 2
        (SaneReachable.added scenarioProbe 3 1 1 SaneReachable.init scenarioProbe_parentsLive
          (fun _ => rfl) scenario_steps.1)
        scenarioProbe_parentsLive (fun _ => rfl) scenario_steps.2.1)
      (show objectRemoved 2 3 scenarioAB 1 = some orphanedB from rfl)
  ⟨by decide, hreach, rfl, rfl, childParentMap_acyclic (by decide) hreach 2⟩

/-! ## C16: the recursion of `objectAdded` -/

/-- The instrumented `objectAdded` computes the model of `objectAdded`. -/
theorem objectAddedTraced_model (cc : Int) (probe : Probe) :
    ∀ (fuel : Nat) (m : ObjectTreeModel) (x : QObjectPtr),
      (objectAddedTraced cc probe fuel m x).map AddedTrace.model =
        objectAdded cc probe fuel m x := by
  intro fuel
  induction fuel with
  | zero => intro m x; rfl
  | succ fuel ih =>
    intro m x
    unfold objectAddedTraced objectAdded
    split
    · rfl
    · cases indexForObject cc m fuel x with
      | none => rfl
      | some own =>
        simp only
        split
        · rfl
        · split
          · cases indexForObject cc m fuel (probe.parent x) with
            | none => rfl
            | some idx =>
              simp only
              split
              · have hrec := ih m (probe.parent x)
                cases ht : objectAddedTraced cc probe fuel m (probe.parent x) with
                | none =>
                  rw [ht] at hrec
                  simp only [Option.map_none'] at hrec
                  rw [← hrec]
                  rfl
                | some t =>
                  rw [ht] at hrec
                  simp only [Option.map_some'] at hrec
                  rw [← hrec]
                  simp only
                  cases insertRow cc probe fuel t.model x <;> rfl
              · cases insertRow cc probe fuel m x <;> rfl
          · cases insertRow cc probe fuel m x <;> rfl

/-- Every recorded recursive call passes the source-graph parent of the object of the
enclosing call, and the nesting depth is bounded by the number of ancestors. -/
theorem objectAddedTraced_calls (cc : Int) (probe : Probe) :
    ∀ (fuel : Nat) (m : ObjectTreeModel) (x : QObjectPtr) (t : AddedTrace),
      objectAddedTraced cc probe fuel m x = some t →
        (∀ c ∈ t.calls, c.2 = probe.parent c.1) ∧
        (∀ d, chainLength probe (d + 1) x = true → t.depth ≤ d) := by
  intro fuel
  induction fuel with
  | zero => intro m x t h; simp [objectAddedTraced] at h
  | succ fuel ih =>
    intro m x t h
    have hnil : ∀ m2 : ObjectTreeModel,
        (∀ c ∈ (AddedTrace.mk m2 [] 0).calls, c.2 = probe.parent c.1) ∧
        (∀ d, chainLength probe (d + 1) x = true → (AddedTrace.mk m2 [] 0).depth ≤ d) :=
      fun m2 => ⟨fun c hc => absurd hc (List.not_mem_nil _), fun d _ => Nat.zero_le d⟩
    unfold objectAddedTraced at h
    split at h
    · rw [← Option.some.inj h]; exact hnil m
    · split at h
      · exact absurd h (Option.noConfusion)
      · split at h
        · rw [← Option.some.inj h]; exact hnil m
        · split at h
          · rename_i hp
            split at h
            · exact absurd h (Option.noConfusion)
            · split at h
              · split at h
                · exact absurd h (Option.noConfusion)
                · rename_i t1 ht1
                  split at h
                  · exact absurd h (Option.noConfusion)
                  · rename_i m2 _
                    obtain ⟨hcalls, hdepth⟩ := ih m (probe.parent x) t1 ht1
                    rw [← Option.some.inj h]
                    refine ⟨?_, ?_⟩
                    · intro c hc
                      simp only [List.mem_cons] at hc
                      rcases hc with rfl | hc
                      · rfl
                      · exact hcalls c hc
                    · intro d hd
                      simp only [chainLength, Bool.and_eq_true, decide_eq_true_eq] at hd
                      cases d with
                      | zero =>
                        simp only [chainLength, decide_eq_true_eq] at hd
                        exact absurd hd.2 hp
                      | succ d =>
                        have := hdepth d hd.2
                        simp only
                        omega
              · split at h
                · exact absurd h (Option.noConfusion)
                · rw [← Option.some.inj h]; exact hnil _
          · split at h
            · exact absurd h (Option.noConfusion)
            · rw [← Option.some.inj h]; exact hnil _

theorem terminates_of_acyclic {cc : Int} {m : ObjectTreeModel} (h : Acyclic m) :
    ∀ z, ∃ n i, indexForObject cc m n z = some i := by
  have key : ∀ (k : Nat) (z : QObjectPtr), reachesRoot m k z = true →
      ∃ i, indexForObject cc m (k + 1) z = some i := by
    intro k
    induction k with
    | zero =>
      intro z hz
      simp only [reachesRoot, decide_eq_true_eq] at hz
      exact ⟨_, by rw [hz]; exact indexForObject_null cc m 0⟩
    | succ k ih =>
      intro z hz
      simp only [reachesRoot, Bool.or_eq_true, decide_eq_true_eq] at hz
      rcases hz with h0 | hrec
      · exact ⟨_, by rw [h0]; exact indexForObject_null cc m (k + 1)⟩
      · obtain ⟨j, hj⟩ := ih _ hrec
        exact indexForObject_some_succ hj
  intro z
  obtain ⟨k, hk⟩ := h z
  obtain ⟨i, hi⟩ := key k z hk
  exact ⟨k + 1, i, hi⟩

theorem acyclic_staleModel : Acyclic staleModel := by
  intro z
  by_cases h1 : z = 1
  · exact ⟨2, by rw [h1]; rfl⟩
  · refine ⟨1, ?_⟩
    simp [reachesRoot, staleModel, appendRow, ObjectTreeModel.parentValue, hashInsert, h1,
      ObjectTreeModel.empty]

theorem acyclic_empty : Acyclic ObjectTreeModel.empty := by
  intro z
  exact ⟨1, by simp [reachesRoot, ObjectTreeModel.empty, ObjectTreeModel.parentValue]⟩

/-- C16, counterexample. The model `staleModel` is reachable and its child→parent map is
acyclic (1, 2, null). The live node 3 has the finite parent chain 3, 2, 1, null in the
source graph, where 1 is not live. `objectAdded(3)` does not return with any fuel: the
recursive call inserts 2 under 1, which closes the cycle 2, 1, 2 in the child→parent
map, and the `indexForObject` of line 83 recurses forever. -/
theorem objectAdded_diverges_on_acyclic_model :
    Reachable 2 staleModel ∧ Acyclic staleModel ∧
    deadGrandparentProbe.isValidObject 3 = true ∧
    chainLength deadGrandparentProbe 3 3 = true ∧
    ∀ fuel, objectAdded 2 deadGrandparentProbe fuel staleModel 3 = none := by
  refine ⟨?_, acyclic_staleModel, rfl, rfl, ?_⟩
  · exact Reachable.step staleProbe 3 (Event.added 1) Reachable.init
      (show applyEvent 2 staleProbe 3 ObjectTreeModel.empty (Event.added 1) = some staleModel
        from rfl)
  · intro fuel
    cases h : objectAdded 2 deadGrandparentProbe fuel staleModel 3 with
    | none => rfl
    | some r =>
      exfalso
      have hbig := objectAdded_mono 2 deadGrandparentProbe fuel (fuel + 4 + 1) _ _ 3 h
        (by omega)
      have hown : indexForObject 2 staleModel (fuel + 4) 3 = some QModelIndex.null :=
        indexForObject_mono 2 staleModel 2 _ 3 _ rfl (by omega)
      have hidx : indexForObject 2 staleModel (fuel + 4) (deadGrandparentProbe.parent 3) =
          some QModelIndex.null :=
        indexForObject_mono 2 staleModel 2 _ _ _ rfl (by omega)
      have hrec : objectAdded 2 deadGrandparentProbe (fuel + 4) staleModel
          (deadGrandparentProbe.parent 3) = some (appendRow staleModel QModelIndex.null 1 2) :=
        objectAdded_mono 2 deadGrandparentProbe 4 _ _ _ _ rfl (by omega)
      rw [objectAdded_parent_first rfl hown isValid_null (by decide) hidx isValid_null hrec]
        at hbig
      have hcycle := (@indexForObject_cycle 2 (appendRow staleModel QModelIndex.null 1 2) 2 1
        (by decide) (by decide) rfl rfl (fuel + 4)).1
      unfold insertRow at hbig
      rw [show deadGrandparentProbe.parent 3 = 2 from rfl, hcycle] at hbig
      exact absurd hbig (Option.noConfusion)

/-- C16, amended. For every model whose child→parent map is acyclic and every node `x`
whose parent chain in the source graph is finite with `d` ancestors, under a source graph
that never attests null and reports a null or live parent for every live object:
`objectAdded(x)` returns, every recursive call it makes passes the source-graph parent of
the object of the enclosing call, and the nesting depth of the recursive calls is at most
`d`. -/
theorem objectAdded_bounded_recursion {cc : Int} {probe : Probe} (hcc : 0 < cc)
    (hprobe : probe.ParentsLive) (d : Nat) {m : ObjectTreeModel} {x : QObjectPtr}
    (hacyclic : Acyclic m) (hd : chainLength probe (d + 1) x = true) :
    ∃ N m', ∀ fuel, N ≤ fuel →
      objectAdded cc probe fuel m x = some m' ∧
      ∃ t, objectAddedTraced cc probe fuel m x = some t ∧ t.model = m' ∧
        (∀ c ∈ t.calls, c.2 = probe.parent c.1) ∧ t.depth ≤ d := by
  have hrun : ∃ N m', ∀ fuel, N ≤ fuel → objectAdded cc probe fuel m x = some m' := by
    cases hv : probe.isValidObject x with
    | false =>
      refine ⟨1, m, ?_⟩
      intro fuel hf
      obtain ⟨k, rfl⟩ : ∃ k, fuel = k + 1 := ⟨fuel - 1, by omega⟩
      exact objectAdded_dead k m hv
    | true =>
      obtain ⟨N, m', hrun, -⟩ :=
        objectAdded_resolves hcc hprobe (d + 1) m x (terminates_of_acyclic hacyclic) hd hv
      exact ⟨N, m', hrun⟩
  obtain ⟨N, m', hrun⟩ := hrun
  refine ⟨N, m', ?_⟩
  intro fuel hf
  have hm := hrun fuel hf
  refine ⟨hm, ?_⟩
  have href := objectAddedTraced_model cc probe fuel m x
  rw [hm] at href
  cases ht : objectAddedTraced cc probe fuel m x with
  | none => rw [ht] at href; exact absurd href (Option.noConfusion)
  | some t =>
    rw [ht] at href
    obtain ⟨hcalls, hdepth⟩ := objectAddedTraced_calls cc probe fuel m x t ht
    exact ⟨t, rfl, Option.some.inj href, hcalls, hdepth d hd⟩

/-- C16, witness: `Added(C)` on the empty model in the scenario. `C` has one ancestor, `A`;
the call for `C` makes one recursive call, for `A`, at depth 1. -/
theorem objectAdded_bounded_recursion_witness :
    (0 : Int) < 2 ∧ scenarioProbe.ParentsLive ∧ Acyclic ObjectTreeModel.empty ∧
    chainLength scenarioProbe (1 + 1) 3 = true ∧
    (objectAddedTraced 2 scenarioProbe 4 ObjectTreeModel.empty 3).map
      (fun t => (t.calls, t.depth)) = some ([(3, 1)], 1) ∧
    ∃ N m', ∀ fuel, N ≤ fuel →
      objectAdded 2 scenarioProbe fuel ObjectTreeModel.empty 3 = some m' ∧
      ∃ t, objectAddedTraced 2 scenarioProbe fuel ObjectTreeModel.empty 3 = some t ∧
        t.model = m' ∧ (∀ c ∈ t.calls, c.2 = scenarioProbe.parent c.1) ∧ t.depth ≤ 1 :=
  ⟨by decide, scenarioProbe_parentsLive, acyclic_empty, rfl, rfl,
    objectAdded_bounded_recursion (by decide) scenarioProbe_parentsLive 1 acyclic_empty rfl⟩

end GammaRay
